import Mathlib

/-!
Cross-core control protocol and detection post-processing of `main_controller.c`.

A shallow embedding of the host controller (ARM side: `send_to_riscv`,
`run_dpu_inference`, `wait_dpu_done`, `process_frame`) and of the co-processor
post-processing (`apply_nms`, `process_yolo_results`, `interrupt_handler`).

Modelling conventions.

* A `uint32_t` is a `Nat`; every operation that can overflow is reduced
  `% 2 ^ 32` explicitly.
* The register block mapped at `hw_regs` is a function from the word index
  `(addr - RISC_V_BASE_ADDR) / 4` to the register value.  The co-processor
  sees the same physical registers at `0x60000000 + offset`.
* A `float` is an exact rational (`ℚ`): rounding and overflow are not
  modelled.  The one division of the program, the IoU of `apply_nms`, yields
  an IEEE infinity or NaN for a zero divisor (`fquot`).  The `double`
  constants `0.5`, `0.25` and the threshold `0.45` are the rationals `1/2`,
  `1/4`, `9/20`.
* Loops are structural recursions on the number of iterations left.
-/

namespace MainController

/-! ## Host side: register map (lines 15-41) -/

def RISC_V_BASE_ADDR : Nat := 0xA0000000
def DPU_BASE_ADDR : Nat := 0xA0010000
def VIDEO_BASE_ADDR : Nat := 0xA0020000

def SHARED_MEM_BASE : Nat := 0x70000000
def SHARED_MEM_SIZE : Nat := 0x10000000

def RISCV_CMD_REG : Nat := RISC_V_BASE_ADDR + 0x00
def RISCV_STATUS_REG : Nat := RISC_V_BASE_ADDR + 0x04
def RISCV_DATA_ADDR_REG : Nat := RISC_V_BASE_ADDR + 0x08
def RISCV_IRQ_REG : Nat := RISC_V_BASE_ADDR + 0x0C

def DPU_CTRL_REG : Nat := DPU_BASE_ADDR + 0x00
def DPU_STATUS_REG : Nat := DPU_BASE_ADDR + 0x04
def DPU_INPUT_ADDR_REG : Nat := DPU_BASE_ADDR + 0x08
def DPU_OUTPUT_ADDR_REG : Nat := DPU_BASE_ADDR + 0x0C
def DPU_WIDTH_REG : Nat := DPU_BASE_ADDR + 0x10
def DPU_HEIGHT_REG : Nat := DPU_BASE_ADDR + 0x14

def CMD_PROCESS_FRAME : Nat := 0x01
def CMD_UPDATE_PARAMS : Nat := 0x02
def CMD_GET_RESULTS : Nat := 0x03

/-- Word index of a host-side register address inside the block mapped at
`hw_regs`: the pointer arithmetic `hw_regs + (addr - RISC_V_BASE_ADDR) / 4`. -/
def hw_index (addr : Nat) : Nat := (addr - RISC_V_BASE_ADDR) / 4

/-- One observable action of the host on the outside world. -/
inductive Event where
  | read (idx : Nat) (val : Nat)
  | write (idx : Nat) (val : Nat)
  | usleep (us : Nat)
deriving DecidableEq, Repr

/-- The event is a register write. -/
def Event.isWrite : Event → Bool
  | Event.write _ _ => true
  | _ => false

/-- Host-visible state: the register block `hw_regs`, the bytes of
`shared_memory`, the two fields of `stats` that `process_frame` updates, and
the chronological trace of register accesses and sleeps. -/
structure Host where
  regs : Nat → Nat
  shared : Nat → Nat
  frame_count : Int
  avg_latency : ℚ
  trace : List Event

/-- Store to one cell of an indexed array or memory. -/
def setAt {α : Type} (m : Nat → α) (idx : Nat) (val : α) : Nat → α :=
  fun k => if k = idx then val else m k

/-- Volatile load of a host register, recorded in the trace. -/
def Host.readReg (h : Host) (addr : Nat) : Nat × Host :=
  (h.regs (hw_index addr),
   { h with trace := h.trace ++ [Event.read (hw_index addr) (h.regs (hw_index addr))] })

/-- Volatile store to a host register, recorded in the trace. -/
def Host.writeReg (h : Host) (addr val : Nat) : Host :=
  { h with regs := setAt h.regs (hw_index addr) val,
           trace := h.trace ++ [Event.write (hw_index addr) val] }

/-- Model of `send_to_riscv` (lines 92-110).  The arguments are `uint32_t`;
`(param << 16) | cmd` is computed modulo `2 ^ 32`. -/
def send_to_riscv (h : Host) (cmd data_addr param : Nat) : Int × Host :=
  let (status, h1) := h.readReg RISCV_STATUS_REG
  if status &&& 0x1 ≠ 0 then
    (-1, h1)
  else
    let h2 := h1.writeReg RISCV_DATA_ADDR_REG data_addr
    let h3 := h2.writeReg RISCV_CMD_REG (((param <<< 16) % 2 ^ 32) ||| cmd)
    let h4 := h3.writeReg RISCV_IRQ_REG 0x1
    (0, h4)

/-- Model of `run_dpu_inference` (lines 113-128).  `width` and `height` arrive
as `uint16_t`, so the caller's values are truncated to 16 bits. -/
def run_dpu_inference (h : Host) (input_addr output_addr width height : Nat) : Int × Host :=
  let h1 := h.writeReg DPU_INPUT_ADDR_REG input_addr
  let h2 := h1.writeReg DPU_OUTPUT_ADDR_REG output_addr
  let h3 := h2.writeReg DPU_WIDTH_REG (width % 2 ^ 16)
  let h4 := h3.writeReg DPU_HEIGHT_REG (height % 2 ^ 16)
  let h5 := h4.writeReg DPU_CTRL_REG 0x1
  (0, h5)

/-- The loop `while (timeout--) { ... }` of `wait_dpu_done` (lines 134-141).
`timeout` is the value of the counter before the test, `k` the number of polls
already made, and `status k` the word that the `k`-th volatile read of the
accelerator status register observes (the accelerator, not the host, drives
that register). -/
def wait_dpu_loop (status : Nat → Nat) : Nat → Nat → Host → Int × Host
  | 0, _, h => (-1, h)
  | timeout + 1, k, h =>
    let h1 : Host :=
      { h with trace := h.trace ++ [Event.read (hw_index DPU_STATUS_REG) (status k)] }
    if status k &&& 0x1 ≠ 0 then
      (0, h1)
    else
      wait_dpu_loop status timeout (k + 1)
        { h1 with trace := h1.trace ++ [Event.usleep 1000] }

/-- Model of `wait_dpu_done` (lines 131-145): `int timeout = 1000`. -/
def wait_dpu_done (status : Nat → Nat) (h : Host) : Int × Host :=
  wait_dpu_loop status 1000 0 h

/-- The local `input_addr` of `process_frame` (line 153): the input frame
sub-region starts at the arena base. -/
def input_addr : Nat := SHARED_MEM_BASE

/-- The local `output_addr` of `process_frame` (line 154): the accelerator
output tensor, 16 MB into the arena. -/
def output_addr : Nat := SHARED_MEM_BASE + 0x1000000

/-- The local `processed_addr` of `process_frame` (line 155): the scratch
sub-region, 32 MB into the arena. -/
def processed_addr : Nat := SHARED_MEM_BASE + 0x2000000

/-- The address of `result_buffer` in `process_yolo_results` (line 383), 48 MB
into the arena. -/
def result_buffer_addr : Nat := SHARED_MEM_BASE + 0x3000000

/-- Model of `process_frame` (lines 148-186).  `latency` is the elapsed time
that the two `clock_gettime` calls measure; `status` is the stream of values
read from the accelerator status register.  `width` and `height` are
non-negative `int`s; `(width << 16) | height` is converted to the `uint32_t`
parameter of `send_to_riscv`. -/
def process_frame (h : Host) (status : Nat → Nat) (latency : ℚ)
    (frame_data : Nat → Nat) (width height : Nat) : Int × Host :=
  let h0 : Host :=
    { h with shared := fun k => if k < width * height * 3 then frame_data k else h.shared k }
  let (r1, h1) := run_dpu_inference h0 input_addr output_addr width height
  if r1 < 0 then (-1, h1) else
  let (r2, h2) := wait_dpu_done status h1
  if r2 < 0 then (-1, h2) else
  let (r3, h3) := send_to_riscv h2 CMD_PROCESS_FRAME output_addr
                    (((width <<< 16) ||| height) % 2 ^ 32)
  if r3 < 0 then (-1, h3) else
  let n := h3.frame_count + 1
  (0, { h3 with frame_count := n,
                avg_latency := (h3.avg_latency * ((n : ℚ) - 1) + latency) / (n : ℚ) })

/-! ## Co-processor side (lines 266-427) -/

def CMD_REG : Nat := 0x60000000
def STATUS_REG : Nat := 0x60000004
def DATA_ADDR_REG : Nat := 0x60000008
def IRQ_CLR_REG : Nat := 0x6000000C
def RESULT_REG : Nat := 0x60000010

/-- Word index of a co-processor register address in the physical register
block: the co-processor sees at `0x60000000 + off` the register that the host
sees at `RISC_V_BASE_ADDR + off`. -/
def rv_index (addr : Nat) : Nat := (addr - 0x60000000) / 4

/-- The struct `detection_t` (lines 279-283), floats as exact rationals. -/
structure detection_t where
  x : ℚ
  y : ℚ
  w : ℚ
  h : ℚ
  confidence : ℚ
  class_id : Int
deriving DecidableEq

instance : Inhabited detection_t := ⟨⟨0, 0, 0, 0, 0, 0⟩⟩

/-- Left edge of the overlap, line 313. -/
def nms_x1 (a b : detection_t) : ℚ := if a.x > b.x then a.x else b.x

/-- Top edge of the overlap, line 314. -/
def nms_y1 (a b : detection_t) : ℚ := if a.y > b.y then a.y else b.y

/-- Right edge of the overlap, lines 315-316. -/
def nms_x2 (a b : detection_t) : ℚ :=
  if (a.x + a.w) < (b.x + b.w) then (a.x + a.w) else (b.x + b.w)

/-- Bottom edge of the overlap, lines 317-318. -/
def nms_y2 (a b : detection_t) : ℚ :=
  if (a.y + a.h) < (b.y + b.h) then (a.y + a.h) else (b.y + b.h)

/-- The variable `intersection`, line 320. -/
def nms_intersection (a b : detection_t) : ℚ :=
  (nms_x2 a b - nms_x1 a b) * (nms_y2 a b - nms_y1 a b)

/-- The value of a `float` division in exact arithmetic: the finite quotient
when the divisor is not zero, and otherwise what IEEE 754 gives for a zero
divisor (an infinity with the sign of the dividend, or NaN for `0 / 0`). -/
inductive fquot where
  | fin (q : ℚ)
  | pos_inf
  | neg_inf
  | nan
deriving DecidableEq

/-- Ordered comparison of two `float` division results, as `<` in C: NaN
compares false with everything, and the infinities lie outside the finite
values. -/
def fquot.blt : fquot → fquot → Bool
  | fquot.fin a, fquot.fin b => decide (a < b)
  | fquot.fin _, fquot.pos_inf => true
  | fquot.neg_inf, fquot.fin _ => true
  | fquot.neg_inf, fquot.pos_inf => true
  | _, _ => false

instance : LT fquot := ⟨fun a b => fquot.blt a b = true⟩

instance fquot.decLt (a b : fquot) : Decidable (a < b) :=
  inferInstanceAs (Decidable (fquot.blt a b = true))

/-- A finite `float` value among the division results. -/
instance : Coe ℚ fquot := ⟨fquot.fin⟩

/-- The `float` division `n / d`.  A zero divisor here is `+0`: in
`area1 + area2 - intersection` it arises as the difference of two equal
values. -/
def float_div (n d : ℚ) : fquot :=
  if d = 0 then
    if 0 < n then fquot.pos_inf else if n < 0 then fquot.neg_inf else fquot.nan
  else fquot.fin (n / d)

/-- The variable `iou`, lines 323-325: `intersection / (area1 + area2 -
intersection)`, which is `+inf` when the union is zero and the intersection
positive. -/
def nms_iou (a b : detection_t) : fquot :=
  float_div (nms_intersection a b) (a.w * a.h + b.w * b.h - nms_intersection a b)

/-- Lines 313-325 for the pair `(dets[i], dets[j])`: `none` when the pass
leaves the pair at `if (intersection <= 0) continue;`, otherwise the value of
`iou` that is compared with the threshold. -/
def computed_iou (a b : detection_t) : Option fquot :=
  if nms_intersection a b ≤ 0 then none else some (nms_iou a b)

/-- The inner loop `for (j = i + 1; j < num_dets; j++)` of `apply_nms`
(lines 309-335): `fuel` iterations are left, `j` is the loop variable.  The
confidence constant `0.5` is the parameter `conf_thr`. -/
def nms_inner (dets : Nat → detection_t) (conf_thr nms_threshold : ℚ) (i : Nat) :
    Nat → Nat → (Nat → Bool) → (Nat → Bool)
  | 0, _, keep => keep
  | fuel + 1, j, keep =>
    if (dets j).confidence < conf_thr then
      nms_inner dets conf_thr nms_threshold i fuel (j + 1) keep
    else
      match computed_iou (dets i) (dets j) with
      | none => nms_inner dets conf_thr nms_threshold i fuel (j + 1) keep
      | some iou =>
        if iou > nms_threshold then
          if (dets i).confidence > (dets j).confidence then
            nms_inner dets conf_thr nms_threshold i fuel (j + 1) (setAt keep j false)
          else
            setAt keep i false
        else
          nms_inner dets conf_thr nms_threshold i fuel (j + 1) keep

/-- The outer loop `for (i = 0; i < num_dets; i++)` of `apply_nms`
(lines 305-338), on the pair (`keep`, `final_count`). -/
def nms_outer (dets : Nat → detection_t) (num_dets : Nat) (conf_thr nms_threshold : ℚ) :
    Nat → Nat → (Nat → Bool) × Nat → (Nat → Bool) × Nat
  | 0, _, st => st
  | fuel + 1, i, (keep, final_count) =>
    if (dets i).confidence < conf_thr then
      nms_outer dets num_dets conf_thr nms_threshold fuel (i + 1) (keep, final_count)
    else
      let keep1 := setAt keep i true
      let keep2 := nms_inner dets conf_thr nms_threshold i (num_dets - (i + 1)) (i + 1) keep1
      nms_outer dets num_dets conf_thr nms_threshold fuel (i + 1)
        (keep2, if keep2 i then final_count + 1 else final_count)

/-- The whole pass of `apply_nms` with the confidence constant as a parameter:
the final `keep` array and `final_count`. -/
def nms_pass (dets : Nat → detection_t) (num_dets : Nat) (conf_thr nms_threshold : ℚ) :
    (Nat → Bool) × Nat :=
  nms_outer dets num_dets conf_thr nms_threshold num_dets 0 (fun _ => false, 0)

/-- Model of `apply_nms` (lines 300-341) with the confidence constant taken
as a parameter. -/
def apply_nms_at (conf_thr : ℚ) (dets : Nat → detection_t) (num_dets : Nat)
    (nms_threshold : ℚ) : Nat :=
  (nms_pass dets num_dets conf_thr nms_threshold).2

/-- Model of `apply_nms` (lines 300-341): the confidence constant is `0.5`. -/
def apply_nms (dets : Nat → detection_t) (num_dets : Nat) (nms_threshold : ℚ) : Nat :=
  apply_nms_at (1 / 2) dets num_dets nms_threshold

/-- A 32-bit word of the result buffer, tagged with the type it was stored
from: an unsigned integer, or the bit pattern of a `float` (kept as the exact
value, so that `*(uint32_t*)&f` is `Word.f32 f`). -/
inductive Word where
  | u32 (n : Nat)
  | f32 (q : ℚ)
deriving DecidableEq

/-- State of the co-processor program: the physical register block, the
global `processed_frames`, the global array `detections`, shared memory seen
as `float` arrays (`float_mem addr k` is `((float*)addr)[k]`), the words of
`result_buffer` (at `SHARED_MEM_BASE + 0x3000000`), and the chronological list
of the stores made to `result_buffer`. -/
structure Riscv where
  regs : Nat → Nat
  processed_frames : Nat
  detections : Nat → detection_t
  float_mem : Nat → Nat → ℚ
  result_buffer : Nat → Word
  writes : List (Nat × Word)

/-- Model of `read_reg` (lines 290-292). -/
def read_reg (s : Riscv) (addr : Nat) : Nat := s.regs (rv_index addr)

/-- Model of `write_reg` (lines 295-297). -/
def write_reg (s : Riscv) (addr value : Nat) : Riscv :=
  { s with regs := setAt s.regs (rv_index addr) value }

/-- Store one word to `result_buffer[idx]`. -/
def Riscv.storeResult (s : Riscv) (idx : Nat) (w : Word) : Riscv :=
  { s with result_buffer := setAt s.result_buffer idx w,
           writes := s.writes ++ [(idx, w)] }

/-- Lines 345-346 of `process_yolo_results`: the `uint16_t` pair
(`width`, `height`) taken from `frame_info`. -/
def frame_dims (frame_info : Nat) : Nat × Nat :=
  ((frame_info >>> 16) &&& 0xFFFF, frame_info &&& 0xFFFF)

/-- The class scan `for (j = 5; j < 85; j++)` (lines 366-371) on the pair
(`max_class_prob`, `max_class_id`) for anchor `i`. -/
def class_scan (raw_output : Nat → ℚ) (i : Nat) : Nat → Nat → ℚ × Int → ℚ × Int
  | 0, _, st => st
  | fuel + 1, j, (max_class_prob, max_class_id) =>
    if raw_output (i * 85 + j) > max_class_prob then
      class_scan raw_output i fuel (j + 1) (raw_output (i * 85 + j), (j : Int) - 5)
    else
      class_scan raw_output i fuel (j + 1) (max_class_prob, max_class_id)

/-- The candidate that lines 357-374 store in `detections[num_detections]`
for anchor `i`. -/
def decode_anchor (raw_output : Nat → ℚ) (width height : Nat) (i : Nat) : detection_t :=
  let best := class_scan raw_output i 80 5 (0, 0)
  { x := raw_output (i * 85 + 0) * (width : ℚ),
    y := raw_output (i * 85 + 1) * (height : ℚ),
    w := raw_output (i * 85 + 2) * (width : ℚ),
    h := raw_output (i * 85 + 3) * (height : ℚ),
    confidence := raw_output (i * 85 + 4) * best.1,
    class_id := best.2 }

/-- The decoder loop `for (i = 0; i < 25200; i++)` (lines 353-377) on the pair
(`detections`, `num_detections`). -/
def decode_loop (raw_output : Nat → ℚ) (width height : Nat) :
    Nat → Nat → (Nat → detection_t) × Nat → (Nat → detection_t) × Nat
  | 0, _, st => st
  | fuel + 1, i, (detections, num_detections) =>
    if raw_output (i * 85 + 4) > 1 / 4 then
      if num_detections ≥ 100 then
        (detections, num_detections)
      else
        decode_loop raw_output width height fuel (i + 1)
          (setAt detections num_detections (decode_anchor raw_output width height i),
           num_detections + 1)
    else
      decode_loop raw_output width height fuel (i + 1) (detections, num_detections)

/-- The six stores of one record (lines 388-393).  `class_id` is an `int`
converted to `uint32_t`. -/
def store_record (s : Riscv) (i : Nat) (d : detection_t) : Riscv :=
  let s0 := s.storeResult (1 + i * 6 + 0) (Word.f32 d.x)
  let s1 := s0.storeResult (1 + i * 6 + 1) (Word.f32 d.y)
  let s2 := s1.storeResult (1 + i * 6 + 2) (Word.f32 d.w)
  let s3 := s2.storeResult (1 + i * 6 + 3) (Word.f32 d.h)
  let s4 := s3.storeResult (1 + i * 6 + 4) (Word.f32 d.confidence)
  s4.storeResult (1 + i * 6 + 5) (Word.u32 (d.class_id % 2 ^ 32).toNat)

/-- The packer loop `for (i = 0; i < final_count; i++)` (lines 386-395). -/
def pack_loop (dets : Nat → detection_t) : Nat → Nat → Riscv → Riscv
  | 0, _, s => s
  | fuel + 1, i, s =>
    if (dets i).confidence > 1 / 2 then
      pack_loop dets fuel (i + 1) (store_record s i (dets i))
    else
      pack_loop dets fuel (i + 1) s

/-- The decoder stage of `process_yolo_results` (lines 345-377): the pair
(`detections`, `num_detections`) after the anchor loop.  `raw_output` is the
`float` array at `SHARED_MEM_BASE + (result_addr - SHARED_MEM_BASE)`, that is
at `result_addr`. -/
def run_decoder (s : Riscv) (result_addr frame_info : Nat) : (Nat → detection_t) × Nat :=
  let width := (frame_dims frame_info).1
  let height := (frame_dims frame_info).2
  let raw_output := s.float_mem result_addr
  decode_loop raw_output width height 25200 0 (s.detections, 0)

/-- The value of `final_count` at line 380: `apply_nms` on the decoder's
output with threshold `0.45`. -/
def final_count_of (s : Riscv) (result_addr frame_info : Nat) : Nat :=
  apply_nms (run_decoder s result_addr frame_info).1
    (run_decoder s result_addr frame_info).2 (9 / 20)

/-- Model of `process_yolo_results` (lines 344-398): decoder, `apply_nms` with
threshold `0.45`, then the packer. -/
def process_yolo_results (s : Riscv) (result_addr frame_info : Nat) : Riscv :=
  let dec := run_decoder s result_addr frame_info
  let final_count := final_count_of s result_addr frame_info
  let s1 : Riscv := { s with detections := dec.1 }
  let s2 := s1.storeResult 0 (Word.u32 final_count)
  let s3 := pack_loop dec.1 final_count 0 s2
  { s3 with processed_frames := (s3.processed_frames + 1) % 2 ^ 32 }

/-- Lines 402-405 of `interrupt_handler`: the opcode, the data address and the
parameter taken from the command and data-address registers. -/
def handler_decode (s : Riscv) : Nat × Nat × Nat :=
  let cmd := read_reg s CMD_REG
  let data_addr := read_reg s DATA_ADDR_REG
  let param := cmd >>> 16
  (cmd &&& 0xFFFF, data_addr, param)

/-- Model of `interrupt_handler` (lines 401-427). -/
def interrupt_handler (s : Riscv) : Riscv :=
  let (cmd, data_addr, param) := handler_decode s
  let s1 :=
    if cmd = 0x01 then process_yolo_results s data_addr param
    else if cmd = 0x02 then s
    else if cmd = 0x03 then write_reg s RESULT_REG s.processed_frames
    else s
  let s2 := write_reg s1 IRQ_CLR_REG 0x1
  write_reg s2 STATUS_REG 0x0

/-! ## Characterisation of the NMS pass -/

/-- Candidate `j` ends the scan of candidate `i` (lines 310-333): `j` passes
the confidence check, the pair reaches the IoU comparison with an IoU above
the threshold, and `dets[i].confidence > dets[j].confidence` fails. -/
def suppresses (dets : Nat → detection_t) (conf_thr nms_threshold : ℚ) (i j : Nat) : Bool :=
  !decide ((dets j).confidence < conf_thr) &&
  (match computed_iou (dets i) (dets j) with
   | none => false
   | some iou => decide (iou > nms_threshold) &&
       !decide ((dets i).confidence > (dets j).confidence))

/-- Candidate `i` is counted: it passes the confidence check and no later
candidate below `num_dets` suppresses it. -/
def survives (dets : Nat → detection_t) (num_dets : Nat) (conf_thr nms_threshold : ℚ)
    (i : Nat) : Bool :=
  !decide ((dets i).confidence < conf_thr) &&
  (List.range' (i + 1) (num_dets - (i + 1))).all
    (fun j => !suppresses dets conf_thr nms_threshold i j)

/-! ## Decoder and result-buffer vocabulary -/

/-- Anchor `i` passes the object-confidence test of line 354. -/
def qualifies (raw_output : Nat → ℚ) (i : Nat) : Bool :=
  decide (raw_output (i * 85 + 4) > 1 / 4)

/-- The packer's test of line 387 on candidate `i`. -/
def pack_gate (dets : Nat → detection_t) (i : Nat) : Bool :=
  decide ((dets i).confidence > 1 / 2)

/-- The six stores that make record `i` (lines 388-393), in program order. -/
def record_words (i : Nat) (d : detection_t) : List (Nat × Word) :=
  [(1 + i * 6 + 0, Word.f32 d.x), (1 + i * 6 + 1, Word.f32 d.y),
   (1 + i * 6 + 2, Word.f32 d.w), (1 + i * 6 + 3, Word.f32 d.h),
   (1 + i * 6 + 4, Word.f32 d.confidence),
   (1 + i * 6 + 5, Word.u32 (d.class_id % 2 ^ 32).toNat)]

/-- Reading record `i` back per the result-buffer format: five float words
and one integer word starting at word `1 + 6 * i`. -/
def parse_record (buf : Nat → Word) (i : Nat) : Option detection_t :=
  match buf (1 + i * 6 + 0), buf (1 + i * 6 + 1), buf (1 + i * 6 + 2),
        buf (1 + i * 6 + 3), buf (1 + i * 6 + 4), buf (1 + i * 6 + 5) with
  | Word.f32 x, Word.f32 y, Word.f32 w, Word.f32 h, Word.f32 c, Word.u32 id =>
    some ⟨x, y, w, h, c, (id : Int)⟩
  | _, _, _, _, _, _ => none

/-- Reparsing the result buffer per its format: read the count word `n`, then
`n` consecutive records. -/
def reparse (buf : Nat → Word) : List (Option detection_t) :=
  match buf 0 with
  | Word.u32 n => (List.range n).map (parse_record buf)
  | Word.f32 _ => []

/-- The candidates that the NMS pass of `process_yolo_results` retains: those
whose `keep` flag is set when `apply_nms` returns, in index order. -/
def nms_retained (dets : Nat → detection_t) (num_dets : Nat) : List detection_t :=
  ((List.range num_dets).filter (nms_pass dets num_dets (1 / 2) (9 / 20)).1).map dets

/-! ## Array subscripts evaluated by one run of `process_yolo_results` -/

/-- One subscript evaluation: the array and the index. -/
inductive Access where
  | detections (i : Nat)
  | keep (i : Nat)
  | raw_output (i : Nat)
  | result_buffer (i : Nat)
deriving DecidableEq

/-- The index is in range: below 100 for `detections[100]` and `keep[100]`,
below `25200 * 85` for the tensor, at most 600 for the result buffer. -/
def Access.inBounds : Access → Bool
  | Access.detections i => decide (i < 100)
  | Access.keep i => decide (i < 100)
  | Access.raw_output i => decide (i < 25200 * 85)
  | Access.result_buffer i => decide (i ≤ 600)

/-- Subscripts evaluated by the class scan (lines 366-371) for anchor `i`:
the test reads `raw_output[i * 85 + j]`, and so does the assignment when the
test succeeds. -/
def class_scan_accesses (raw_output : Nat → ℚ) (i : Nat) : Nat → Nat → ℚ → List Access
  | 0, _, _ => []
  | fuel + 1, j, max_class_prob =>
    if raw_output (i * 85 + j) > max_class_prob then
      Access.raw_output (i * 85 + j) :: Access.raw_output (i * 85 + j) ::
        class_scan_accesses raw_output i fuel (j + 1) (raw_output (i * 85 + j))
    else
      Access.raw_output (i * 85 + j) ::
        class_scan_accesses raw_output i fuel (j + 1) max_class_prob

/-- Subscripts evaluated by lines 357-374 for anchor `i` stored in slot
`num_detections`. -/
def anchor_accesses (raw_output : Nat → ℚ) (i num_detections : Nat) : List Access :=
  [Access.raw_output (i * 85 + 0), Access.detections num_detections,
   Access.raw_output (i * 85 + 1), Access.detections num_detections,
   Access.raw_output (i * 85 + 2), Access.detections num_detections,
   Access.raw_output (i * 85 + 3), Access.detections num_detections,
   Access.raw_output (i * 85 + 4), Access.detections num_detections] ++
  class_scan_accesses raw_output i 80 5 0 ++
  [Access.detections num_detections, Access.detections num_detections]

/-- Subscripts evaluated by the decoder loop (lines 353-377), following the
control flow of `decode_loop`. -/
def decode_accesses (raw_output : Nat → ℚ) : Nat → Nat → Nat → List Access
  | 0, _, _ => []
  | fuel + 1, i, num_detections =>
    Access.raw_output (i * 85 + 4) ::
      (if raw_output (i * 85 + 4) > 1 / 4 then
        if num_detections ≥ 100 then
          []
        else
          anchor_accesses raw_output i num_detections ++
            decode_accesses raw_output fuel (i + 1) (num_detections + 1)
      else
        decode_accesses raw_output fuel (i + 1) num_detections)

/-- Subscripts evaluated by the inner loop of `apply_nms` (lines 309-335),
following the control flow of `nms_inner`. -/
def nms_inner_accesses (dets : Nat → detection_t) (conf_thr nms_threshold : ℚ) (i : Nat) :
    Nat → Nat → List Access
  | 0, _ => []
  | fuel + 1, j =>
    Access.detections j ::
      (if (dets j).confidence < conf_thr then
        nms_inner_accesses dets conf_thr nms_threshold i fuel (j + 1)
      else
        Access.detections i :: Access.detections j ::
          (match computed_iou (dets i) (dets j) with
           | none => nms_inner_accesses dets conf_thr nms_threshold i fuel (j + 1)
           | some iou =>
             Access.detections i :: Access.detections j ::
               (if iou > nms_threshold then
                 Access.detections i :: Access.detections j ::
                   (if (dets i).confidence > (dets j).confidence then
                     Access.keep j ::
                       nms_inner_accesses dets conf_thr nms_threshold i fuel (j + 1)
                   else
                     [Access.keep i])
               else
                 nms_inner_accesses dets conf_thr nms_threshold i fuel (j + 1))))

/-- Subscripts evaluated by the outer loop of `apply_nms` (lines 305-338),
following the control flow of `nms_outer`. -/
def nms_outer_accesses (dets : Nat → detection_t) (num_dets : Nat)
    (conf_thr nms_threshold : ℚ) : Nat → Nat → List Access
  | 0, _ => []
  | fuel + 1, i =>
    Access.detections i ::
      (if (dets i).confidence < conf_thr then
        nms_outer_accesses dets num_dets conf_thr nms_threshold fuel (i + 1)
      else
        Access.keep i ::
          (nms_inner_accesses dets conf_thr nms_threshold i (num_dets - (i + 1)) (i + 1) ++
            Access.keep i ::
              nms_outer_accesses dets num_dets conf_thr nms_threshold fuel (i + 1)))

/-- Subscripts evaluated by the packer loop (lines 386-395), following the
control flow of `pack_loop`. -/
def pack_accesses (dets : Nat → detection_t) : Nat → Nat → List Access
  | 0, _ => []
  | fuel + 1, i =>
    Access.detections i ::
      (if (dets i).confidence > 1 / 2 then
        [Access.detections i, Access.result_buffer (1 + i * 6 + 0),
         Access.detections i, Access.result_buffer (1 + i * 6 + 1),
         Access.detections i, Access.result_buffer (1 + i * 6 + 2),
         Access.detections i, Access.result_buffer (1 + i * 6 + 3),
         Access.detections i, Access.result_buffer (1 + i * 6 + 4),
         Access.detections i, Access.result_buffer (1 + i * 6 + 5)] ++
          pack_accesses dets fuel (i + 1)
      else
        pack_accesses dets fuel (i + 1))

/-- Every subscript evaluated by one run of `process_yolo_results`: decoder,
`apply_nms` on the decoder's output, the count store, the packer. -/
def yolo_accesses (s : Riscv) (result_addr frame_info : Nat) : List Access :=
  decode_accesses (s.float_mem result_addr) 25200 0 0 ++
  nms_outer_accesses (run_decoder s result_addr frame_info).1
    (run_decoder s result_addr frame_info).2 (1 / 2) (9 / 20)
    (run_decoder s result_addr frame_info).2 0 ++
  Access.result_buffer 0 ::
    pack_accesses (run_decoder s result_addr frame_info).1
      (final_count_of s result_addr frame_info) 0

/-! ## Concrete states used by the evaluations below -/

/-- The trace that `n` unsuccessful polls starting at poll `k` leave: each
status read is followed by one sleep of 1000 microseconds. -/
def poll_trace (status : Nat → Nat) (k n : Nat) : List Event :=
  (List.range' k n).flatMap
    (fun m => [Event.read (hw_index DPU_STATUS_REG) (status m), Event.usleep 1000])

/-- A host whose registers all hold `v`, with empty shared memory and trace. -/
def host_with (v : Nat) : Host :=
  { regs := fun _ => v, shared := fun _ => 0, frame_count := 0, avg_latency := 0, trace := [] }

/-- The co-processor at start-up on a given register block, with the `float`
array `tensor` at every address of shared memory, a zeroed result buffer and
no store made yet. -/
def riscv_on (regs : Nat → Nat) (tensor : Nat → ℚ) : Riscv :=
  { regs := regs, processed_frames := 0, detections := fun _ => default,
    float_mem := fun _ => tensor, result_buffer := fun _ => Word.u32 0, writes := [] }

/-- A tensor given by the leading values of its first anchors: value `j` of
anchor `i` is entry `j` of row `i`, and every value not listed is 0. -/
def tensor_of (rows : List (List ℚ)) (k : Nat) : ℚ :=
  (rows.getD (k / 85) []).getD (k % 85) 0

/-- The two candidates of the NMS scenario: boxes (0,0,10,10) with confidence
0.9 and (1,1,10,10) with confidence 0.8, both of class 1. -/
def two_candidates (i : Nat) : detection_t :=
  if i = 0 then ⟨0, 0, 10, 10, 9 / 10, 1⟩ else ⟨1, 1, 10, 10, 8 / 10, 1⟩

/-- A tensor with one qualifying anchor: box (0, 0, 0.1, 0.1), object
confidence 0.5, class 0 score 1; final confidence exactly 0.5. -/
def half_tensor : Nat → ℚ := tensor_of [[0, 0, 1 / 10, 1 / 10, 1 / 2, 1]]

/-- Three qualifying anchors on a 100 x 100 frame: A = (1,1,10,10) with
confidence 0.6, B = (0,0,10,10) with 0.9, C = (50,0,10,10) with 0.7. -/
def three_rows : List (List ℚ) :=
  [[1 / 100, 1 / 100, 1 / 10, 1 / 10, 6 / 10, 1],
   [0, 0, 1 / 10, 1 / 10, 9 / 10, 1],
   [1 / 2, 0, 1 / 10, 1 / 10, 7 / 10, 1]]

/-- The tensor whose first three anchors are `three_rows`. -/
def three_anchor_tensor : Nat → ℚ := tensor_of three_rows

/-- One qualifying anchor: box (0, 0, 0.1, 0.1), object confidence 0.9, class 0
score 1. -/
def single_rows : List (List ℚ) := [[0, 0, 1 / 10, 1 / 10, 9 / 10, 1]]

/-- The tensor whose first anchor is the row of `single_rows`. -/
def single_tensor : Nat → ℚ := tensor_of single_rows

/-- The intersection area of two boxes with each extent clamped at 0:
`max(0, min(x2) - max(x1)) * max(0, min(y2) - max(y1))`. -/
def clamped_intersection (a b : detection_t) : ℚ :=
  max 0 (nms_x2 a b - nms_x1 a b) * max 0 (nms_y2 a b - nms_y1 a b)

/-- Two 10 x 10 boxes at (0,0) and (20,20), confidences 0.6 and 0.9: a gap of
10 separates them on both axes. -/
def far_apart (i : Nat) : detection_t :=
  if i = 0 then ⟨0, 0, 10, 10, 6 / 10, 0⟩ else ⟨20, 20, 10, 10, 9 / 10, 0⟩

/-- The event is a store to register `idx`. -/
def Event.writesTo (idx : Nat) : Event → Bool
  | Event.write i _ => decide (i = idx)
  | _ => false

/-- Two overlapping candidates of equal confidence 0.9: boxes (0,0,10,10) and
(1,1,10,10). -/
def tie_pair (i : Nat) : detection_t :=
  if i = 0 then ⟨0, 0, 10, 10, 9 / 10, 1⟩ else ⟨1, 1, 10, 10, 9 / 10, 1⟩

/-- Two unit boxes at (0,0) and (3,2), confidences 0.6 and 0.9: the product
of the two negative extents is 2, equal to the sum of the areas, so the union
`area1 + area2 - intersection` is zero. -/
def zero_union (i : Nat) : detection_t :=
  if i = 0 then ⟨0, 0, 1, 1, 6 / 10, 0⟩ else ⟨3, 2, 1, 1, 9 / 10, 0⟩

/-! ## Theorems -/

/-- Comparison of two finite division results. -/
@[simp] theorem fquot.fin_lt_fin (a b : ℚ) : (fquot.fin a < fquot.fin b) ↔ a < b := by
  show (decide (a < b) = true) ↔ a < b
  exact decide_eq_true_iff

/-- Every finite value is below `+inf`. -/
@[simp] theorem fquot.fin_lt_pos_inf (a : ℚ) : fquot.fin a < fquot.pos_inf := by
  show (true = true)
  rfl

/-- A finite value read as a division result. -/
@[simp] theorem fquot.coe_fin (a : ℚ) : ((a : ℚ) : fquot) = fquot.fin a := rfl

/-- Packing two 16-bit halves: shifting the high half and or-ing the low half
is the positional sum. -/
theorem pack16 (hi lo : Nat) (hhi : hi < 2 ^ 16) (hlo : lo < 2 ^ 16) :
    ((hi <<< 16) % 2 ^ 32) ||| lo = hi * 2 ^ 16 + lo := by
  have h1 : hi <<< 16 = 2 ^ 16 * hi := by rw [Nat.shiftLeft_eq, Nat.mul_comm]
  have h2 : 2 ^ 16 * hi < 2 ^ 32 := by omega
  rw [h1, Nat.mod_eq_of_lt h2, ← Nat.mul_add_lt_is_or hlo, Nat.mul_comm]

/-- The busy test `status & 0x1` is the parity of the status word. -/
theorem land_one_ne_zero_iff (v : Nat) : v &&& 0x1 ≠ 0 ↔ v % 2 = 1 := by
  rw [Nat.and_one_is_mod]; omega

/-- C1: when bit 0 (busy) of the co-processor status register is set,
`send_to_riscv` returns -1, leaves every register as it was, and its only
access to the register block is the one status read: the trace gains no
write event. -/
theorem send_to_riscv_busy (h : Host) (cmd data_addr param : Nat)
    (hbusy : h.regs (hw_index RISCV_STATUS_REG) % 2 = 1) :
    (send_to_riscv h cmd data_addr param).1 = -1 ∧
    (send_to_riscv h cmd data_addr param).2.regs = h.regs ∧
    (send_to_riscv h cmd data_addr param).2.trace =
      h.trace ++ [Event.read (hw_index RISCV_STATUS_REG)
                    (h.regs (hw_index RISCV_STATUS_REG))] ∧
    (send_to_riscv h cmd data_addr param).2.trace.filter Event.isWrite =
      h.trace.filter Event.isWrite := by
  simp [send_to_riscv, Host.readReg, hbusy, Event.isWrite]

/-- Witness for C1: a host whose status register holds 1 (busy). -/
theorem send_to_riscv_busy_witness :
    (host_with 1).regs (hw_index RISCV_STATUS_REG) % 2 = 1 ∧
    (send_to_riscv (host_with 1) CMD_PROCESS_FRAME 0x71000000 0x438).1 = -1 ∧
    (send_to_riscv (host_with 1) CMD_PROCESS_FRAME 0x71000000 0x438).2.regs =
      (host_with 1).regs :=
  ⟨by decide,
   (send_to_riscv_busy (host_with 1) CMD_PROCESS_FRAME 0x71000000 0x438 (by decide)).1,
   (send_to_riscv_busy (host_with 1) CMD_PROCESS_FRAME 0x71000000 0x438 (by decide)).2.1⟩

/-- C2: when the busy bit is clear and `cmd`, `param` fit in 16 bits,
`send_to_riscv` returns 0; afterwards the data-address register holds
`data_addr`, the command register holds the word with `param` in its high 16
bits and `cmd` in its low 16 bits, the interrupt-trigger register holds 1, and
every other register is unchanged. -/
theorem send_to_riscv_idle (h : Host) (cmd data_addr param : Nat)
    (hcmd : cmd < 2 ^ 16) (hparam : param < 2 ^ 16)
    (hidle : h.regs (hw_index RISCV_STATUS_REG) % 2 = 0) :
    (send_to_riscv h cmd data_addr param).1 = 0 ∧
    (send_to_riscv h cmd data_addr param).2.regs (hw_index RISCV_DATA_ADDR_REG) = data_addr ∧
    (send_to_riscv h cmd data_addr param).2.regs (hw_index RISCV_CMD_REG) =
      param * 2 ^ 16 + cmd ∧
    (send_to_riscv h cmd data_addr param).2.regs (hw_index RISCV_CMD_REG) / 2 ^ 16 = param ∧
    (send_to_riscv h cmd data_addr param).2.regs (hw_index RISCV_CMD_REG) % 2 ^ 16 = cmd ∧
    (send_to_riscv h cmd data_addr param).2.regs (hw_index RISCV_IRQ_REG) = 1 ∧
    ∀ idx, idx ≠ hw_index RISCV_DATA_ADDR_REG → idx ≠ hw_index RISCV_CMD_REG →
      idx ≠ hw_index RISCV_IRQ_REG →
      (send_to_riscv h cmd data_addr param).2.regs idx = h.regs idx := by
  have hb : ¬ (h.regs (hw_index RISCV_STATUS_REG) &&& 0x1 ≠ 0) := by
    rw [land_one_ne_zero_iff]; omega
  have hpk := pack16 param cmd hparam hcmd
  have e0 : hw_index RISCV_CMD_REG = 0 := by decide
  have e2 : hw_index RISCV_DATA_ADDR_REG = 2 := by decide
  have e3 : hw_index RISCV_IRQ_REG = 3 := by decide
  simp only [send_to_riscv, Host.readReg, Host.writeReg, hb, if_false, setAt, e0, e2, e3, hpk]
  refine ⟨?_, ?_, ?_, ?_, ?_, ?_, ?_⟩
  · trivial
  · simp
  · simp
  · simp only [show (0 : Nat) ≠ 3 by decide, if_false, if_true]; omega
  · simp only [show (0 : Nat) ≠ 3 by decide, if_false, if_true]; omega
  · simp
  · intro idx h2 h0 h3
    simp [h2, h0, h3]

/-- Witness for C2: an idle host receives `ProcessFrame` with parameter 1080. -/
theorem send_to_riscv_idle_witness :
    (host_with 0).regs (hw_index RISCV_STATUS_REG) % 2 = 0 ∧
    (send_to_riscv (host_with 0) CMD_PROCESS_FRAME 0x71000000 0x438).1 = 0 ∧
    (send_to_riscv (host_with 0) CMD_PROCESS_FRAME 0x71000000 0x438).2.regs
      (hw_index RISCV_CMD_REG) = 0x438 * 2 ^ 16 + CMD_PROCESS_FRAME :=
  ⟨by decide,
   (send_to_riscv_idle (host_with 0) CMD_PROCESS_FRAME 0x71000000 0x438
      (by decide) (by decide) (by decide)).1,
   (send_to_riscv_idle (host_with 0) CMD_PROCESS_FRAME 0x71000000 0x438
      (by decide) (by decide) (by decide)).2.2.1⟩

/-- The polling loop, when none of the next `n` reads shows the done bit:
it fails after exactly those `n` polls and touches no register. -/
theorem wait_dpu_loop_never (status : Nat → Nat) (n k : Nat) (h : Host)
    (hnever : ∀ m, k ≤ m → m < k + n → status m % 2 = 0) :
    wait_dpu_loop status n k h =
      (-1, { h with trace := h.trace ++ poll_trace status k n }) := by
  induction n generalizing k h with
  | zero => simp [wait_dpu_loop, poll_trace]
  | succ n ih =>
    have hk : ¬ (status k &&& 0x1 ≠ 0) := by
      rw [land_one_ne_zero_iff]
      have := hnever k (Nat.le_refl k) (by omega)
      omega
    rw [wait_dpu_loop]
    simp only [hk, if_false]
    rw [ih (k + 1) _ (fun m h1 h2 => hnever m (by omega) (by omega))]
    simp [poll_trace, List.range'_succ, List.append_assoc]

/-- C4: if every one of the polls reads a status word whose done bit (bit 0)
is clear, `wait_dpu_done` returns -1 after exactly 1000 status reads, each
followed by one sleep of 1000 microseconds, and writes no register: the
register block (the accelerator control register included) is unchanged. -/
theorem wait_dpu_done_timeout (status : Nat → Nat) (h : Host)
    (hnever : ∀ k, k < 1000 → status k % 2 = 0) :
    (wait_dpu_done status h).1 = -1 ∧
    (wait_dpu_done status h).2.regs = h.regs ∧
    (wait_dpu_done status h).2.regs (hw_index DPU_CTRL_REG) = h.regs (hw_index DPU_CTRL_REG) ∧
    (wait_dpu_done status h).2.trace =
      h.trace ++ (List.range 1000).flatMap
        (fun k => [Event.read (hw_index DPU_STATUS_REG) (status k), Event.usleep 1000]) ∧
    ((wait_dpu_done status h).2.trace.drop h.trace.length).length = 2 * 1000 ∧
    (wait_dpu_done status h).2.trace.filter Event.isWrite = h.trace.filter Event.isWrite := by
  have hl := wait_dpu_loop_never status 1000 0 h (fun m _ h2 => hnever m (by omega))
  have hp : poll_trace status 0 1000 = (List.range 1000).flatMap
      (fun k => [Event.read (hw_index DPU_STATUS_REG) (status k), Event.usleep 1000]) := by
    rw [poll_trace, List.range_eq_range']
  have hlen : ∀ (l : List Nat), (l.flatMap
      (fun k => [Event.read (hw_index DPU_STATUS_REG) (status k), Event.usleep 1000])).length
        = 2 * l.length := by
    intro l
    induction l with
    | nil => rfl
    | cons a l ih => simp [List.flatMap_cons, ih]; omega
  have hfil : ∀ (l : List Nat), (l.flatMap
      (fun k => [Event.read (hw_index DPU_STATUS_REG) (status k), Event.usleep 1000])).filter
        Event.isWrite = [] := by
    intro l
    induction l with
    | nil => rfl
    | cons a l ih => simp [List.flatMap_cons, Event.isWrite, ih]
  unfold wait_dpu_done
  rw [hl, hp]
  refine ⟨rfl, rfl, rfl, rfl, ?_, ?_⟩
  · simp [hlen]
  · simp [hfil]

/-- Witness for C4: an accelerator whose status register always reads 0. -/
theorem wait_dpu_done_timeout_witness :
    (∀ k, k < 1000 → (fun _ : Nat => 0) k % 2 = 0) ∧
    (wait_dpu_done (fun _ => 0) (host_with 0)).1 = -1 :=
  ⟨fun _ _ => rfl, (wait_dpu_done_timeout (fun _ => 0) (host_with 0) (fun _ _ => rfl)).1⟩

/-- The frame dimensions that survive the dispatch: `process_frame` packs
`(width << 16) | height` into the parameter, `send_to_riscv` shifts that
parameter left by 16 inside a 32-bit word, the handler shifts the command word
right by 16, and `process_yolo_results` splits what is left.  The width is
always lost. -/
theorem dims_after_dispatch (width height : Nat) (hw : width < 2 ^ 16) (hh : height < 2 ^ 16) :
    frame_dims ((((((width <<< 16) ||| height) % 2 ^ 32) <<< 16) % 2 ^ 32
      ||| CMD_PROCESS_FRAME) >>> 16) = (0, height) := by
  have h1 : (width <<< 16) ||| height = width * 2 ^ 16 + height := by
    have := pack16 width height hw hh
    rwa [Nat.mod_eq_of_lt (by rw [Nat.shiftLeft_eq]; omega)] at this
  have h2 : (((width * 2 ^ 16 + height) % 2 ^ 32) <<< 16) % 2 ^ 32 = 2 ^ 16 * height := by
    rw [Nat.shiftLeft_eq]; omega
  have h3 : 2 ^ 16 * height ||| CMD_PROCESS_FRAME = 2 ^ 16 * height + 1 :=
    (Nat.mul_add_lt_is_or (by decide) height).symm
  rw [h1, h2, h3]
  unfold frame_dims
  simp only [show (0xFFFF : Nat) = 2 ^ 16 - 1 by decide, Nat.and_pow_two_sub_one_eq_mod,
    Nat.shiftRight_eq_div_pow]
  refine Prod.ext ?_ ?_ <;> simp only <;> omega

/-- C3 (fails on the code): a 1920 x 1080 frame is processed with the
accelerator done at the first poll and the co-processor idle.  `process_frame`
succeeds, the command register holds `1080 << 16 | 1`, the handler decodes
opcode 1, and the dimensions that `process_yolo_results` splits from the
handler's parameter are width 0 and height 1080: the width does not
round-trip. -/
theorem process_frame_dims_not_roundtrip :
    (process_frame (host_with 0) (fun _ => 1) 0 (fun _ => 0) 1920 1080).1 = 0 ∧
    (process_frame (host_with 0) (fun _ => 1) 0 (fun _ => 0) 1920 1080).2.regs
      (hw_index RISCV_CMD_REG) = 1080 * 2 ^ 16 + 1 ∧
    (handler_decode (riscv_on
      (process_frame (host_with 0) (fun _ => 1) 0 (fun _ => 0) 1920 1080).2.regs (fun _ => 0))).1 = 1 ∧
    frame_dims (handler_decode (riscv_on
      (process_frame (host_with 0) (fun _ => 1) 0 (fun _ => 0) 1920 1080).2.regs (fun _ => 0))).2.2
      = (0, 1080) ∧
    frame_dims (handler_decode (riscv_on
      (process_frame (host_with 0) (fun _ => 1) 0 (fun _ => 0) 1920 1080).2.regs (fun _ => 0))).2.2
      ≠ (1920, 1080) := by
  decide

/-! ### The NMS pass -/

/-- What the inner loop leaves in `keep[i]`: the incoming flag, cleared as soon
as one of the scanned candidates suppresses `i`. -/
theorem nms_inner_self (dets : Nat → detection_t) (ct thr : ℚ) (i : Nat) :
    ∀ (fuel j : Nat) (keep : Nat → Bool), i < j →
      nms_inner dets ct thr i fuel j keep i =
        (keep i && (List.range' j fuel).all (fun m => !suppresses dets ct thr i m)) := by
  intro fuel
  induction fuel with
  | zero => intro j keep _; simp [nms_inner]
  | succ fuel ih =>
    intro j keep hij
    rw [nms_inner, List.range'_succ, List.all_cons]
    by_cases hc : (dets j).confidence < ct
    · rw [if_pos hc, ih (j + 1) keep (by omega)]
      simp [suppresses, hc]
    · rw [if_neg hc]
      cases hiou : computed_iou (dets i) (dets j) with
      | none =>
        simp only []
        rw [ih (j + 1) keep (by omega)]
        simp [suppresses, hc, hiou]
      | some v =>
        simp only []
        by_cases hv : v > thr
        · rw [if_pos hv]
          by_cases hgt : (dets i).confidence > (dets j).confidence
          · rw [if_pos hgt, ih (j + 1) _ (by omega)]
            have hne : i ≠ j := by omega
            simp [suppresses, hc, hiou, hv, hgt, setAt, hne]
          · rw [if_neg hgt]
            simp [suppresses, hc, hiou, hv, hgt, setAt]
        · rw [if_neg hv, ih (j + 1) keep (by omega)]
          simp [suppresses, hc, hiou, hv]

/-- The outer loop adds one to `final_count` for each surviving index, whatever
the incoming `keep` array holds. -/
theorem nms_outer_count (dets : Nat → detection_t) (n : Nat) (ct thr : ℚ) :
    ∀ (fuel i : Nat) (keep : Nat → Bool) (c : Nat),
      (nms_outer dets n ct thr fuel i (keep, c)).2 =
        c + (List.range' i fuel).countP (survives dets n ct thr) := by
  intro fuel
  induction fuel with
  | zero => intro i keep c; simp [nms_outer]
  | succ fuel ih =>
    intro i keep c
    rw [nms_outer, List.range'_succ, List.countP_cons]
    by_cases hc : (dets i).confidence < ct
    · rw [if_pos hc, ih]
      simp [survives, hc]
    · rw [if_neg hc]
      simp only []
      rw [ih, nms_inner_self dets ct thr i _ _ _ (Nat.lt_succ_self i)]
      have hs : survives dets n ct thr i =
          (List.range' (i + 1) (n - (i + 1))).all (fun m => !suppresses dets ct thr i m) := by
        simp [survives, hc]
      rw [hs]
      cases (List.range' (i + 1) (n - (i + 1))).all (fun m => !suppresses dets ct thr i m) <;>
        (simp [setAt]; try omega)

/-- The count returned by `apply_nms` is the number of surviving indices. -/
theorem apply_nms_at_eq_countP (ct : ℚ) (dets : Nat → detection_t) (n : Nat) (thr : ℚ) :
    apply_nms_at ct dets n thr = (List.range n).countP (survives dets n ct thr) := by
  rw [apply_nms_at, nms_pass, nms_outer_count, List.range_eq_range', Nat.zero_add]

/-- A suppressor of a candidate that passes the higher confidence threshold
also passes that threshold itself. -/
theorem suppresses_mono (dets : Nat → detection_t) (thr t1 t2 : ℚ) (i j : Nat)
    (hi : ¬ (dets i).confidence < t2)
    (h1 : suppresses dets t1 thr i j = true) : suppresses dets t2 thr i j = true := by
  unfold suppresses at h1 ⊢
  cases hiou : computed_iou (dets i) (dets j) with
  | none => rw [hiou] at h1; simp at h1
  | some v =>
    rw [hiou] at h1
    simp only [Bool.and_eq_true, Bool.not_eq_true', decide_eq_false_iff_not,
      decide_eq_true_eq] at h1 ⊢
    obtain ⟨_, hv, hle⟩ := h1
    refine ⟨fun hlt => hi ?_, hv, hle⟩
    exact lt_of_le_of_lt (not_lt.mp hle) hlt

/-- A candidate that survives at a confidence threshold survives at every
lower one. -/
theorem survives_mono (dets : Nat → detection_t) (n : Nat) (thr t1 t2 : ℚ) (ht : t1 ≤ t2)
    (i : Nat) (h2 : survives dets n t2 thr i = true) : survives dets n t1 thr i = true := by
  simp only [survives, Bool.and_eq_true, Bool.not_eq_true', decide_eq_false_iff_not,
    List.all_eq_true] at h2 ⊢
  obtain ⟨hc, hall⟩ := h2
  refine ⟨fun hlt => hc (lt_of_lt_of_le hlt ht), ?_⟩
  intro j hj
  have hj2 := hall j hj
  cases hs : suppresses dets t1 thr i j with
  | false => rfl
  | true =>
    rw [suppresses_mono dets thr t1 t2 i j hc hs] at hj2
    exact absurd hj2 (by decide)

/-- C5 (fails on the code): on the scenario's two candidates, whose computed
IoU is 81/119 > 0.45 and whose first confidence is the greater, `apply_nms`
returns 2, not 1: the flag `keep[1]`, cleared while candidate 0 is scanned,
is set again when the outer loop reaches candidate 1, and both final flags
are true. -/
theorem apply_nms_scenario_counts_both :
    computed_iou (two_candidates 0) (two_candidates 1) = some (fquot.fin (81 / 119)) ∧
    apply_nms two_candidates 2 (9 / 20) = 2 ∧
    (nms_pass two_candidates 2 (1 / 2) (9 / 20)).1 0 = true ∧
    (nms_pass two_candidates 2 (1 / 2) (9 / 20)).1 1 = true := by
  norm_num [apply_nms, apply_nms_at, nms_pass, nms_outer, nms_inner, computed_iou,
    nms_intersection, nms_iou, float_div, nms_x1, nms_x2, nms_y1, nms_y2, two_candidates, setAt]

/-- The overlap edges do not depend on the order of the pair. -/
theorem nms_edges_comm (a b : detection_t) :
    nms_x1 a b = nms_x1 b a ∧ nms_y1 a b = nms_y1 b a ∧
    nms_x2 a b = nms_x2 b a ∧ nms_y2 a b = nms_y2 b a := by
  refine ⟨?_, ?_, ?_, ?_⟩
  · unfold nms_x1; split_ifs <;> linarith
  · unfold nms_y1; split_ifs <;> linarith
  · unfold nms_x2; split_ifs <;> linarith
  · unfold nms_y2; split_ifs <;> linarith

/-- C9: the IoU that `apply_nms` computes for the ordered pair `(a, b)` equals
the one it computes for `(b, a)`: the intersection, the value of `iou`, and
whether the pair is left at `intersection <= 0` all agree. -/
theorem computed_iou_comm (a b : detection_t) :
    nms_intersection a b = nms_intersection b a ∧
    nms_iou a b = nms_iou b a ∧
    computed_iou a b = computed_iou b a := by
  obtain ⟨hx1, hy1, hx2, hy2⟩ := nms_edges_comm a b
  have hi : nms_intersection a b = nms_intersection b a := by
    unfold nms_intersection; rw [hx1, hy1, hx2, hy2]
  have hu : nms_iou a b = nms_iou b a := by
    unfold nms_iou; rw [hi, add_comm (a.w * a.h) (b.w * b.h)]
  exact ⟨hi, hu, by unfold computed_iou; rw [hi, hu]⟩

/-- At a zero union the IoU is `+inf`, above every threshold: on `zero_union`
the pass clears `keep[0]` and returns 1. -/
theorem zero_union_suppresses :
    nms_intersection (zero_union 0) (zero_union 1) = 2 ∧
    computed_iou (zero_union 0) (zero_union 1) = some fquot.pos_inf ∧
    (nms_pass zero_union 2 (1 / 2) (9 / 20)).1 0 = false ∧
    apply_nms zero_union 2 (9 / 20) = 1 := by
  norm_num [apply_nms, apply_nms_at, nms_pass, nms_outer, nms_inner, computed_iou,
    nms_intersection, nms_iou, float_div, nms_x1, nms_x2, nms_y1, nms_y2, zero_union, setAt]

/-- C10: for a fixed candidate list and a fixed IoU threshold, the count
returned by `apply_nms` (confidence constant taken as a parameter at both
checks) does not increase when the confidence threshold increases. -/
theorem apply_nms_at_antitone (dets : Nat → detection_t) (num_dets : Nat)
    (nms_threshold t1 t2 : ℚ) (ht : t1 ≤ t2) :
    apply_nms_at t2 dets num_dets nms_threshold ≤
      apply_nms_at t1 dets num_dets nms_threshold := by
  rw [apply_nms_at_eq_countP, apply_nms_at_eq_countP]
  exact List.countP_mono_left
    (fun i _ h => survives_mono dets num_dets nms_threshold t1 t2 ht i h)

/-- Witness for C10: the scenario's candidates at confidence thresholds 0.5
and 0.85. -/
theorem apply_nms_at_antitone_witness :
    (1 / 2 : ℚ) ≤ 17 / 20 ∧
    apply_nms_at (17 / 20) two_candidates 2 (9 / 20) ≤
      apply_nms_at (1 / 2) two_candidates 2 (9 / 20) :=
  ⟨by norm_num, apply_nms_at_antitone two_candidates 2 (9 / 20) (1 / 2) (17 / 20) (by norm_num)⟩

/-! ### The decoder -/

/-- The decoder loop from anchor `i` with `n <= 100` candidates already stored:
the new count, the untouched prefix, and the candidates it appends, which are
those of the first `100 - n` qualifying anchors in anchor order. -/
theorem decode_loop_spec (raw : Nat → ℚ) (w h : Nat) :
    ∀ (fuel i : Nat) (dets : Nat → detection_t) (n : Nat), n ≤ 100 →
      (decode_loop raw w h fuel i (dets, n)).2 =
        min 100 (n + ((List.range' i fuel).filter (qualifies raw)).length) ∧
      (∀ k, k < n → (decode_loop raw w h fuel i (dets, n)).1 k = dets k) ∧
      (List.range' n ((decode_loop raw w h fuel i (dets, n)).2 - n)).map
          (decode_loop raw w h fuel i (dets, n)).1 =
        (((List.range' i fuel).filter (qualifies raw)).take (100 - n)).map
          (decode_anchor raw w h) := by
  intro fuel
  induction fuel with
  | zero =>
    intro i dets n hn
    simp [decode_loop, hn]
  | succ fuel ih =>
    intro i dets n hn
    rw [decode_loop, List.range'_succ]
    by_cases hq : raw (i * 85 + 4) > 1 / 4
    · have hqb : qualifies raw i = true := decide_eq_true hq
      rw [if_pos hq, List.filter_cons_of_pos hqb]
      by_cases hfull : n ≥ 100
      · have hn100 : n = 100 := by omega
        subst hn100
        rw [if_pos hfull]
        simp
      · rw [if_neg hfull]
        obtain ⟨h1, h2, h3⟩ := ih (i + 1) (setAt dets n (decode_anchor raw w h i)) (n + 1)
          (by omega)
        refine ⟨?_, ?_, ?_⟩
        · rw [h1, List.length_cons]; omega
        · intro k hk
          rw [h2 k (by omega)]
          simp [setAt, Nat.ne_of_lt hk]
        · have hge : n + 1 ≤ (decode_loop raw w h fuel (i + 1)
              (setAt dets n (decode_anchor raw w h i), n + 1)).2 := by
            rw [h1]; omega
          have e1 : (decode_loop raw w h fuel (i + 1)
              (setAt dets n (decode_anchor raw w h i), n + 1)).2 - n =
              ((decode_loop raw w h fuel (i + 1)
              (setAt dets n (decode_anchor raw w h i), n + 1)).2 - (n + 1)) + 1 := by omega
          have e2 : 100 - n = (100 - (n + 1)) + 1 := by omega
          rw [e1, List.range'_succ, List.map_cons, h3, e2, List.take_succ_cons, List.map_cons,
            h2 n (by omega)]
          simp [setAt]
    · have hqb : qualifies raw i = false := decide_eq_false hq
      rw [if_neg hq, List.filter_cons_of_neg (by simp [hqb])]
      exact ih (i + 1) dets n hn

/-! ### The packer -/

/-- Effect of the six stores of one record on the state. -/
theorem store_record_fields (s : Riscv) (i : Nat) (d : detection_t) :
    (store_record s i d).writes = s.writes ++ record_words i d ∧
    (store_record s i d).result_buffer 0 = s.result_buffer 0 ∧
    (store_record s i d).detections = s.detections ∧
    (store_record s i d).regs = s.regs ∧
    (store_record s i d).processed_frames = s.processed_frames := by
  refine ⟨by simp [store_record, Riscv.storeResult, record_words], ?_, rfl, rfl, rfl⟩
  have e : ∀ k, ¬ (0 = 1 + i * 6 + k) := fun k => by omega
  simp only [store_record, Riscv.storeResult, setAt, e, if_false]

/-- The packer loop stores one record for each index that passes its
confidence test, in index order, and leaves word 0 and the rest of the state
alone. -/
theorem pack_loop_spec (dets : Nat → detection_t) :
    ∀ (fuel i : Nat) (s : Riscv),
      (pack_loop dets fuel i s).writes =
        s.writes ++ ((List.range' i fuel).filter (pack_gate dets)).flatMap
          (fun k => record_words k (dets k)) ∧
      (pack_loop dets fuel i s).result_buffer 0 = s.result_buffer 0 ∧
      (pack_loop dets fuel i s).detections = s.detections ∧
      (pack_loop dets fuel i s).regs = s.regs ∧
      (pack_loop dets fuel i s).processed_frames = s.processed_frames := by
  intro fuel
  induction fuel with
  | zero => intro i s; simp [pack_loop]
  | succ fuel ih =>
    intro i s
    rw [pack_loop, List.range'_succ]
    by_cases hg : (dets i).confidence > 1 / 2
    · have hgb : pack_gate dets i = true := decide_eq_true hg
      obtain ⟨r1, r2, r3, r4, r5⟩ := store_record_fields s i (dets i)
      obtain ⟨h1, h2, h3, h4, h5⟩ := ih (i + 1) (store_record s i (dets i))
      rw [if_pos hg, List.filter_cons_of_pos hgb, List.flatMap_cons]
      refine ⟨?_, ?_, ?_, ?_, ?_⟩
      · rw [h1, r1, List.append_assoc]
      · rw [h2, r2]
      · rw [h3, r3]
      · rw [h4, r4]
      · rw [h5, r5]
    · have hgb : pack_gate dets i = false := decide_eq_false hg
      rw [if_neg hg, List.filter_cons_of_neg (by simp [hgb])]
      exact ih (i + 1) s

/-- The stores of one run of `process_yolo_results`: the count word, then the
record of each index below `final_count` that passes the packer test. -/
theorem process_yolo_results_packs (s : Riscv) (result_addr frame_info : Nat) :
    (process_yolo_results s result_addr frame_info).result_buffer 0 =
      Word.u32 (final_count_of s result_addr frame_info) ∧
    (process_yolo_results s result_addr frame_info).writes =
      s.writes ++
        (0, Word.u32 (final_count_of s result_addr frame_info)) ::
        ((List.range (final_count_of s result_addr frame_info)).filter
          (pack_gate (run_decoder s result_addr frame_info).1)).flatMap
          (fun k => record_words k ((run_decoder s result_addr frame_info).1 k)) ∧
    (process_yolo_results s result_addr frame_info).detections =
      (run_decoder s result_addr frame_info).1 := by
  unfold process_yolo_results
  simp only []
  obtain ⟨h1, h2, h3, _, _⟩ := pack_loop_spec (run_decoder s result_addr frame_info).1
    (final_count_of s result_addr frame_info) 0
    (Riscv.storeResult { s with detections := (run_decoder s result_addr frame_info).1 } 0
      (Word.u32 (final_count_of s result_addr frame_info)))
  refine ⟨?_, ?_, ?_⟩
  · rw [h2]; simp [Riscv.storeResult, setAt]
  · rw [h1, List.range_eq_range']; simp [Riscv.storeResult]
  · rw [h3]; simp [Riscv.storeResult]

/-- Value `j` of anchor `i` of a tensor given by rows. -/
theorem tensor_of_at (rows : List (List ℚ)) (i j : Nat) (hj : j < 85) :
    tensor_of rows (i * 85 + j) = (rows.getD i []).getD j 0 := by
  have h1 : (i * 85 + j) / 85 = i := by omega
  have h2 : (i * 85 + j) % 85 = j := by omega
  rw [tensor_of, h1, h2]

/-- The decoder loop does nothing over a stretch of anchors none of which
passes the object-confidence test. -/
theorem decode_loop_none (raw : Nat → ℚ) (w h : Nat) :
    ∀ (fuel i : Nat) (st : (Nat → detection_t) × Nat),
      (∀ a, i ≤ a → a < i + fuel → ¬ raw (a * 85 + 4) > 1 / 4) →
      decode_loop raw w h fuel i st = st := by
  intro fuel
  induction fuel with
  | zero => intro i st _; rfl
  | succ fuel ih =>
    intro i st hno
    obtain ⟨dets, n⟩ := st
    rw [decode_loop, if_neg (hno i (Nat.le_refl i) (by omega))]
    exact ih (i + 1) (dets, n) (fun a h1 h2 => hno a (by omega) (by omega))

/-- The class scan does nothing over a stretch of scores none of which exceeds
the running maximum. -/
theorem class_scan_none (raw : Nat → ℚ) (i : Nat) :
    ∀ (fuel j : Nat) (st : ℚ × Int),
      (∀ m, j ≤ m → m < j + fuel → ¬ raw (i * 85 + m) > st.1) →
      class_scan raw i fuel j st = st := by
  intro fuel
  induction fuel with
  | zero => intro j st _; rfl
  | succ fuel ih =>
    intro j st hno
    obtain ⟨p, c⟩ := st
    rw [class_scan, if_neg (hno j (Nat.le_refl j) (by omega))]
    exact ih (j + 1) (p, c) (fun m h1 h2 => hno m (by omega) (by omega))

/-- The candidate decoded from an anchor whose only positive class score is
that of class 0. -/
theorem decode_anchor_row (rows : List (List ℚ)) (W H i : Nat) (x y w h c p : ℚ)
    (hrow : rows.getD i [] = [x, y, w, h, c, p]) (hp : 0 < p) :
    decode_anchor (tensor_of rows) W H i = ⟨x * W, y * H, w * W, h * H, c * p, 0⟩ := by
  have hv : ∀ j, j < 85 → tensor_of rows (i * 85 + j) = [x, y, w, h, c, p].getD j 0 := by
    intro j hj; rw [tensor_of_at rows i j hj, hrow]
  have hs : class_scan (tensor_of rows) i 80 5 (0, 0) = (p, 0) := by
    rw [show (80 : Nat) = 79 + 1 from rfl, class_scan, hv 5 (by omega)]
    simp only [List.getD_cons_succ, List.getD_cons_zero]
    rw [if_pos hp]
    simp only [Nat.cast_ofNat, sub_self]
    apply class_scan_none
    intro m h1 h2
    rw [hv m (by omega)]
    obtain ⟨k, rfl⟩ : ∃ k, m = k + 6 := ⟨m - 6, by omega⟩
    simp only [List.getD_cons_succ, List.getD_nil]
    exact not_lt.mpr hp.le
  unfold decode_anchor
  rw [hs, hv 0 (by omega), hv 1 (by omega), hv 2 (by omega), hv 3 (by omega), hv 4 (by omega)]
  simp

/-- Anchors past the listed rows have object confidence 0. -/
theorem tensor_of_tail (rows : List (List ℚ)) (a : Nat) (ha : rows.length ≤ a) :
    ¬ tensor_of rows (a * 85 + 4) > 1 / 4 := by
  rw [tensor_of_at rows a 4 (by omega), List.getD_eq_default _ _ ha]
  norm_num

/-- The decoder on `half_tensor` emits one candidate of confidence 1/2. -/
theorem run_decoder_half :
    run_decoder (riscv_on (fun _ => 0) half_tensor) 0x71000000 6553700 =
      (setAt (fun _ => default) 0 ⟨0, 0, 10, 10, 1 / 2, 0⟩, 1) := by
  have hd : frame_dims 6553700 = (100, 100) := by decide
  have h0 : decode_anchor half_tensor 100 100 0 = ⟨0, 0, 10, 10, 1 / 2, 0⟩ := by
    rw [half_tensor, decode_anchor_row [[0, 0, 1 / 10, 1 / 10, 1 / 2, 1]] 100 100 0
      0 0 (1 / 10) (1 / 10) (1 / 2) 1 rfl (by norm_num)]
    norm_num
  have hq : half_tensor (0 * 85 + 4) > 1 / 4 := by
    rw [half_tensor, tensor_of_at _ 0 4 (by omega)]
    norm_num
  unfold run_decoder
  simp only [hd, riscv_on]
  rw [show (25200 : Nat) = 25199 + 1 from rfl, decode_loop, if_pos hq, if_neg (by omega), h0]
  exact decode_loop_none _ _ _ _ _ _
    (fun a h1 _ => tensor_of_tail _ a (by simpa using h1))

/-- On `half_tensor` the NMS pass counts the single candidate. -/
theorem final_count_half :
    final_count_of (riscv_on (fun _ => 0) half_tensor) 0x71000000 6553700 = 1 := by
  rw [final_count_of, run_decoder_half]
  norm_num [apply_nms, apply_nms_at, nms_pass, nms_outer, nms_inner, setAt]

/-- The decoder on `three_anchor_tensor` emits A, B, C. -/
theorem run_decoder_three :
    run_decoder (riscv_on (fun _ => 0) three_anchor_tensor) 0x71000000 6553700 =
      (setAt (setAt (setAt (fun _ => default) 0 ⟨1, 1, 10, 10, 3 / 5, 0⟩)
          1 ⟨0, 0, 10, 10, 9 / 10, 0⟩) 2 ⟨50, 0, 10, 10, 7 / 10, 0⟩, 3) := by
  have hd : frame_dims 6553700 = (100, 100) := by decide
  have h0 : decode_anchor three_anchor_tensor 100 100 0 = ⟨1, 1, 10, 10, 3 / 5, 0⟩ := by
    rw [three_anchor_tensor, decode_anchor_row three_rows 100 100 0
      (1 / 100) (1 / 100) (1 / 10) (1 / 10) (6 / 10) 1 rfl (by norm_num)]
    norm_num
  have h1 : decode_anchor three_anchor_tensor 100 100 1 = ⟨0, 0, 10, 10, 9 / 10, 0⟩ := by
    rw [three_anchor_tensor, decode_anchor_row three_rows 100 100 1
      0 0 (1 / 10) (1 / 10) (9 / 10) 1 rfl (by norm_num)]
    norm_num
  have h2 : decode_anchor three_anchor_tensor 100 100 2 = ⟨50, 0, 10, 10, 7 / 10, 0⟩ := by
    rw [three_anchor_tensor, decode_anchor_row three_rows 100 100 2
      (1 / 2) 0 (1 / 10) (1 / 10) (7 / 10) 1 rfl (by norm_num)]
    norm_num
  have hq0 : three_anchor_tensor (0 * 85 + 4) > 1 / 4 := by
    rw [three_anchor_tensor, tensor_of_at _ 0 4 (by omega)]; norm_num [three_rows]
  have hq1 : three_anchor_tensor ((0 + 1) * 85 + 4) > 1 / 4 := by
    rw [three_anchor_tensor, tensor_of_at _ (0 + 1) 4 (by omega)]; norm_num [three_rows]
  have hq2 : three_anchor_tensor ((0 + 1 + 1) * 85 + 4) > 1 / 4 := by
    rw [three_anchor_tensor, tensor_of_at _ (0 + 1 + 1) 4 (by omega)]; norm_num [three_rows]
  unfold run_decoder
  simp only [hd, riscv_on]
  rw [show (25200 : Nat) = 25197 + 1 + 1 + 1 from rfl, decode_loop, if_pos hq0,
    if_neg (by omega), decode_loop, if_pos hq1, if_neg (by omega), decode_loop, if_pos hq2,
    if_neg (by omega), h0, h1, h2]
  exact decode_loop_none _ _ _ _ _ _
    (fun a h1 _ => tensor_of_tail _ a (by simpa [three_rows] using h1))


/-- On `three_anchor_tensor` the NMS pass returns 2 and retains B and C: A is
suppressed by B, and C does not overlap B. -/
theorem final_count_three :
    final_count_of (riscv_on (fun _ => 0) three_anchor_tensor) 0x71000000 6553700 = 2 ∧
    nms_retained (run_decoder (riscv_on (fun _ => 0) three_anchor_tensor) 0x71000000 6553700).1
      (run_decoder (riscv_on (fun _ => 0) three_anchor_tensor) 0x71000000 6553700).2 =
      [⟨0, 0, 10, 10, 9 / 10, 0⟩, ⟨50, 0, 10, 10, 7 / 10, 0⟩] := by
  rw [final_count_of, run_decoder_three]
  constructor
  · norm_num [apply_nms, apply_nms_at, nms_pass, nms_outer, nms_inner, computed_iou,
      nms_intersection, nms_iou, float_div, nms_x1, nms_x2, nms_y1, nms_y2, setAt]
  · norm_num [nms_retained, nms_pass, nms_outer, nms_inner, computed_iou,
      nms_intersection, nms_iou, float_div, nms_x1, nms_x2, nms_y1, nms_y2, setAt, List.range_succ,
      List.filter_cons]

/-! ### The final `keep` flags -/

/-- The inner loop for candidate `i` never sets a flag other than `keep[i]`,
and leaves the flags below `j` alone. -/
theorem nms_inner_other (dets : Nat → detection_t) (ct thr : ℚ) (i : Nat) :
    ∀ (fuel j : Nat) (keep : Nat → Bool) (k : Nat), k ≠ i →
      (nms_inner dets ct thr i fuel j keep k = keep k ∨
        nms_inner dets ct thr i fuel j keep k = false) ∧
      (k < j → nms_inner dets ct thr i fuel j keep k = keep k) := by
  intro fuel
  induction fuel with
  | zero => intro j keep k _; simp [nms_inner]
  | succ fuel ih =>
    intro j keep k hk
    rw [nms_inner]
    by_cases hc : (dets j).confidence < ct
    · rw [if_pos hc]
      exact ⟨(ih (j + 1) keep k hk).1, fun h => (ih (j + 1) keep k hk).2 (by omega)⟩
    · rw [if_neg hc]
      cases computed_iou (dets i) (dets j) with
      | none =>
        exact ⟨(ih (j + 1) keep k hk).1, fun h => (ih (j + 1) keep k hk).2 (by omega)⟩
      | some v =>
        simp only []
        by_cases hv : v > thr
        · rw [if_pos hv]
          by_cases hgt : (dets i).confidence > (dets j).confidence
          · rw [if_pos hgt]
            obtain ⟨h1, h2⟩ := ih (j + 1) (setAt keep j false) k hk
            constructor
            · rcases h1 with h1 | h1
              · rw [h1]
                by_cases hkj : k = j
                · right; simp [setAt, hkj]
                · left; simp [setAt, hkj]
              · exact Or.inr h1
            · intro hlt
              rw [h2 (by omega)]
              simp [setAt, Nat.ne_of_lt hlt]
          · rw [if_neg hgt]
            simp [setAt, hk]
        · rw [if_neg hv]
          exact ⟨(ih (j + 1) keep k hk).1, fun h => (ih (j + 1) keep k hk).2 (by omega)⟩

/-- The `keep` array after the outer loop: entries below `i` are untouched and
the entry of each later index tells whether that candidate survives. -/
theorem nms_outer_keep (dets : Nat → detection_t) (n : Nat) (ct thr : ℚ) :
    ∀ (fuel i : Nat) (keep : Nat → Bool) (c : Nat), i + fuel = n →
      (∀ k, i ≤ k → (dets k).confidence < ct → keep k = false) →
      ∀ k, (k < i → (nms_outer dets n ct thr fuel i (keep, c)).1 k = keep k) ∧
        (i ≤ k → k < n →
          (nms_outer dets n ct thr fuel i (keep, c)).1 k = survives dets n ct thr k) := by
  intro fuel
  induction fuel with
  | zero =>
    intro i keep c hn _ k
    exact ⟨fun _ => rfl, fun h1 h2 => absurd h2 (by omega)⟩
  | succ fuel ih =>
    intro i keep c hn hinv k
    rw [nms_outer]
    by_cases hc : (dets i).confidence < ct
    · rw [if_pos hc]
      obtain ⟨h1, h2⟩ := ih (i + 1) keep c (by omega)
        (fun m hm hcm => hinv m (by omega) hcm) k
      refine ⟨fun hk => h1 (by omega), fun hik hkn => ?_⟩
      by_cases hki : k = i
      · subst hki
        rw [h1 (by omega), hinv k (Nat.le_refl k) hc]
        simp [survives, hc]
      · exact h2 (by omega) hkn
    · rw [if_neg hc]
      simp only []
      have hinv2 : ∀ m, i + 1 ≤ m → (dets m).confidence < ct →
          nms_inner dets ct thr i (n - (i + 1)) (i + 1) (setAt keep i true) m = false := by
        intro m hm hcm
        have hmi : m ≠ i := by omega
        rcases (nms_inner_other dets ct thr i _ (i + 1) (setAt keep i true) m hmi).1 with h | h
        · rw [h]; simp only [setAt, if_neg hmi]; exact hinv m (by omega) hcm
        · exact h
      obtain ⟨h1, h2⟩ := ih (i + 1) _
        (if nms_inner dets ct thr i (n - (i + 1)) (i + 1) (setAt keep i true) i = true
          then c + 1 else c) (by omega) hinv2 k
      refine ⟨fun hk => ?_, fun hik hkn => ?_⟩
      · rw [h1 (by omega),
          (nms_inner_other dets ct thr i _ (i + 1) (setAt keep i true) k (by omega)).2 (by omega)]
        simp [setAt, Nat.ne_of_lt hk]
      · by_cases hki : k = i
        · subst hki
          rw [h1 (by omega), nms_inner_self dets ct thr k _ _ _ (Nat.lt_succ_self k)]
          simp [survives, hc, setAt]
        · exact h2 (by omega) hkn

/-- The final `keep` flag of an index below `num_dets` tells whether the
candidate survives. -/
theorem nms_pass_keep (dets : Nat → detection_t) (n : Nat) (ct thr : ℚ) (k : Nat) (hk : k < n) :
    (nms_pass dets n ct thr).1 k = survives dets n ct thr k :=
  ((nms_outer_keep dets n ct thr n 0 (fun _ => false) 0 (Nat.zero_add n)
    (fun _ _ _ => rfl) k).2 (Nat.zero_le k) hk)

/-- The class scan keeps `max_class_id` a non-negative 32-bit value. -/
theorem class_scan_id_range (raw : Nat → ℚ) (i : Nat) :
    ∀ (fuel j : Nat) (st : ℚ × Int), 5 ≤ j → j + fuel ≤ 2 ^ 32 → 0 ≤ st.2 → st.2 < 2 ^ 32 →
      0 ≤ (class_scan raw i fuel j st).2 ∧ (class_scan raw i fuel j st).2 < 2 ^ 32 := by
  intro fuel
  induction fuel with
  | zero => intro j st _ _ h0 h1; exact ⟨h0, h1⟩
  | succ fuel ih =>
    intro j st hj hb h0 h1
    obtain ⟨p, c⟩ := st
    rw [class_scan]
    split_ifs
    · exact ih (j + 1) _ (by omega) (by omega) (by simp only; omega) (by simp only; omega)
    · exact ih (j + 1) _ (by omega) (by omega) h0 h1

/-- A decoded candidate has a non-negative 32-bit class id. -/
theorem decode_anchor_class_id (raw : Nat → ℚ) (w h a : Nat) :
    0 ≤ (decode_anchor raw w h a).class_id ∧ (decode_anchor raw w h a).class_id < 2 ^ 32 :=
  class_scan_id_range raw a 80 5 (0, 0) (by omega) (by norm_num) (by norm_num) (by norm_num)

/-- Every candidate that the decoder emits has a non-negative 32-bit class id. -/
theorem run_decoder_class_id (s : Riscv) (result_addr frame_info k : Nat)
    (hk : k < (run_decoder s result_addr frame_info).2) :
    0 ≤ ((run_decoder s result_addr frame_info).1 k).class_id ∧
    ((run_decoder s result_addr frame_info).1 k).class_id < 2 ^ 32 := by
  unfold run_decoder at hk ⊢
  simp only [] at hk ⊢
  obtain ⟨_, _, h3⟩ := decode_loop_spec (s.float_mem result_addr) (frame_dims frame_info).1
    (frame_dims frame_info).2 25200 0 s.detections 0 (by omega)
  have hmem : (decode_loop (s.float_mem result_addr) (frame_dims frame_info).1
      (frame_dims frame_info).2 25200 0 (s.detections, 0)).1 k ∈
      (List.range' 0 ((decode_loop (s.float_mem result_addr) (frame_dims frame_info).1
        (frame_dims frame_info).2 25200 0 (s.detections, 0)).2 - 0)).map
        (decode_loop (s.float_mem result_addr) (frame_dims frame_info).1
          (frame_dims frame_info).2 25200 0 (s.detections, 0)).1 :=
    List.mem_map.mpr ⟨k, by rw [List.mem_range']; exact ⟨k, by omega, by omega⟩, rfl⟩
  rw [h3] at hmem
  obtain ⟨a, _, ha⟩ := List.mem_map.mp hmem
  rw [← ha]
  exact decode_anchor_class_id _ _ _ a

/-! ### Decoder bound and result-buffer round trip -/

/-- C8: whatever the tensor, the decoder loop of `process_yolo_results` emits
the candidates of exactly the first `min 100 m` anchors, in anchor order,
among the `m` anchors (of the 25200) whose object confidence exceeds 0.25; it
never emits more than 100 candidates. -/
theorem decoder_emits_first_hundred (s : Riscv) (result_addr frame_info : Nat) :
    (run_decoder s result_addr frame_info).2 =
      min 100 ((List.range 25200).filter (qualifies (s.float_mem result_addr))).length ∧
    (run_decoder s result_addr frame_info).2 ≤ 100 ∧
    (List.range (run_decoder s result_addr frame_info).2).map
        (run_decoder s result_addr frame_info).1 =
      (((List.range 25200).filter (qualifies (s.float_mem result_addr))).take 100).map
        (decode_anchor (s.float_mem result_addr) (frame_dims frame_info).1
          (frame_dims frame_info).2) := by
  obtain ⟨h1, _, h3⟩ := decode_loop_spec (s.float_mem result_addr) (frame_dims frame_info).1
    (frame_dims frame_info).2 25200 0 s.detections 0 (by omega)
  unfold run_decoder
  simp only []
  rw [List.range_eq_range', List.range_eq_range']
  refine ⟨?_, ?_, ?_⟩
  · rw [h1, Nat.zero_add]
  · rw [h1]; exact Nat.min_le_left _ _
  · simpa using h3

/-- Reading a record back depends only on its six words. -/
theorem parse_record_congr (b1 b2 : Nat → Word) (i : Nat)
    (h : ∀ m, 1 + i * 6 ≤ m → m < 1 + (i + 1) * 6 → b1 m = b2 m) :
    parse_record b1 i = parse_record b2 i := by
  unfold parse_record
  rw [h (1 + i * 6 + 0) (by omega) (by omega), h (1 + i * 6 + 1) (by omega) (by omega),
    h (1 + i * 6 + 2) (by omega) (by omega), h (1 + i * 6 + 3) (by omega) (by omega),
    h (1 + i * 6 + 4) (by omega) (by omega), h (1 + i * 6 + 5) (by omega) (by omega)]

/-- The six stores of record `i` leave every lower word alone. -/
theorem store_record_low (s : Riscv) (i : Nat) (d : detection_t) (m : Nat)
    (hm : m < 1 + i * 6) : (store_record s i d).result_buffer m = s.result_buffer m := by
  have e : ∀ k, ¬ (m = 1 + i * 6 + k) := fun k => by omega
  simp only [store_record, Riscv.storeResult, setAt, e, if_false]

/-- Reading back the record just stored. -/
theorem parse_record_store (s : Riscv) (i : Nat) (d : detection_t) :
    parse_record (store_record s i d).result_buffer i =
      some ⟨d.x, d.y, d.w, d.h, d.confidence, ((d.class_id % 2 ^ 32).toNat : Int)⟩ := by
  simp [parse_record, store_record, Riscv.storeResult, setAt]

/-- The packer loop from index `i0` leaves the words of the lower records
alone. -/
theorem pack_loop_low (dets : Nat → detection_t) :
    ∀ (fuel i0 : Nat) (s : Riscv) (m : Nat), m < 1 + i0 * 6 →
      (pack_loop dets fuel i0 s).result_buffer m = s.result_buffer m := by
  intro fuel
  induction fuel with
  | zero => intro i0 s m _; rfl
  | succ fuel ih =>
    intro i0 s m hm
    rw [pack_loop]
    split_ifs
    · rw [ih (i0 + 1) _ m (by omega), store_record_low s i0 _ m hm]
    · exact ih (i0 + 1) s m (by omega)

/-- After the packer loop, the record of every index that passed the packer
test reads back as that candidate. -/
theorem pack_loop_parse (dets : Nat → detection_t) :
    ∀ (fuel i0 : Nat) (s : Riscv) (i : Nat), i0 ≤ i → i < i0 + fuel →
      pack_gate dets i = true →
      parse_record (pack_loop dets fuel i0 s).result_buffer i =
        some ⟨(dets i).x, (dets i).y, (dets i).w, (dets i).h, (dets i).confidence,
          (((dets i).class_id % 2 ^ 32).toNat : Int)⟩ := by
  intro fuel
  induction fuel with
  | zero => intro i0 s i h1 h2 _; exact absurd h2 (by omega)
  | succ fuel ih =>
    intro i0 s i h1 h2 hg
    rw [pack_loop]
    by_cases hi : i = i0
    · subst hi
      have hgt : (dets i).confidence > 1 / 2 := of_decide_eq_true hg
      rw [if_pos hgt, parse_record_congr _ (store_record s i (dets i)).result_buffer i
        (fun m _ hm => pack_loop_low dets fuel (i + 1) _ m hm)]
      exact parse_record_store s i (dets i)
    · split_ifs
      · exact ih (i0 + 1) _ i (by omega) (by omega) hg
      · exact ih (i0 + 1) s i (by omega) (by omega) hg

/-- The six stores of record `i` leave every higher record alone. -/
theorem store_record_high (s : Riscv) (i : Nat) (d : detection_t) (m : Nat)
    (hm : 1 + (i + 1) * 6 ≤ m) : (store_record s i d).result_buffer m = s.result_buffer m := by
  have e : ∀ k, k < 6 → ¬ (m = 1 + i * 6 + k) := fun k hk => by omega
  simp only [store_record, Riscv.storeResult, setAt, e 0 (by omega), e 1 (by omega),
    e 2 (by omega), e 3 (by omega), e 4 (by omega), e 5 (by omega), if_false]

/-- After the packer loop, the record of an index that failed the packer test
still holds the words the buffer held before. -/
theorem pack_loop_parse_skip (dets : Nat → detection_t) :
    ∀ (fuel i0 : Nat) (s : Riscv) (i : Nat), i0 ≤ i → i < i0 + fuel →
      pack_gate dets i = false →
      parse_record (pack_loop dets fuel i0 s).result_buffer i =
        parse_record s.result_buffer i := by
  intro fuel
  induction fuel with
  | zero => intro i0 s i h1 h2 _; exact absurd h2 (by omega)
  | succ fuel ih =>
    intro i0 s i h1 h2 hg
    rw [pack_loop]
    by_cases hi : i = i0
    · subst hi
      have hgt : ¬ (dets i).confidence > 1 / 2 := of_decide_eq_false hg
      rw [if_neg hgt]
      exact parse_record_congr _ _ i (fun m _ hm => pack_loop_low dets fuel (i + 1) _ m hm)
    · split_ifs
      · rw [ih (i0 + 1) _ i (by omega) (by omega) hg]
        exact parse_record_congr _ _ i
          (fun m hm _ => store_record_high s i0 (dets i0) m (by omega))
      · exact ih (i0 + 1) s i (by omega) (by omega) hg

/-- Reparsing the result buffer after `process_yolo_results`: record `i` below
the count word is candidate `i` when it passed the packer test, and otherwise
whatever the buffer held there before the call. -/
theorem reparse_records (s : Riscv) (result_addr frame_info : Nat) :
    reparse (process_yolo_results s result_addr frame_info).result_buffer =
      (List.range (final_count_of s result_addr frame_info)).map
        (fun i => if pack_gate (run_decoder s result_addr frame_info).1 i = true
          then some ((run_decoder s result_addr frame_info).1 i)
          else parse_record s.result_buffer i) := by
  have hfc : final_count_of s result_addr frame_info =
      (List.range (run_decoder s result_addr frame_info).2).countP
        (survives (run_decoder s result_addr frame_info).1
          (run_decoder s result_addr frame_info).2 (1 / 2) (9 / 20)) := by
    rw [final_count_of, apply_nms, apply_nms_at_eq_countP]
  have hle : final_count_of s result_addr frame_info ≤ (run_decoder s result_addr frame_info).2 := by
    rw [hfc]
    exact (List.countP_le_length _).trans (List.length_range _).le
  obtain ⟨hb0, _, _⟩ := process_yolo_results_packs s result_addr frame_info
  have hbuf : (process_yolo_results s result_addr frame_info).result_buffer =
      (pack_loop (run_decoder s result_addr frame_info).1
        (final_count_of s result_addr frame_info) 0
        (Riscv.storeResult { s with detections := (run_decoder s result_addr frame_info).1 } 0
          (Word.u32 (final_count_of s result_addr frame_info)))).result_buffer := rfl
  have hrec : ∀ i, i < final_count_of s result_addr frame_info →
      parse_record (process_yolo_results s result_addr frame_info).result_buffer i =
        if pack_gate (run_decoder s result_addr frame_info).1 i = true
          then some ((run_decoder s result_addr frame_info).1 i)
          else parse_record s.result_buffer i := by
    intro i hi
    rw [hbuf]
    by_cases hg : pack_gate (run_decoder s result_addr frame_info).1 i = true
    · rw [if_pos hg, pack_loop_parse _ _ 0 _ i (Nat.zero_le i) (by omega) hg]
      obtain ⟨hc0, hc1⟩ := run_decoder_class_id s result_addr frame_info i (by omega)
      rw [Int.emod_eq_of_lt hc0 hc1, Int.toNat_of_nonneg hc0]
    · rw [if_neg hg, pack_loop_parse_skip _ _ 0 _ i (Nat.zero_le i) (by omega)
        (Bool.eq_false_iff.mpr hg)]
      refine parse_record_congr _ _ i (fun m hm _ => ?_)
      have hm0 : ¬ (m = 0) := by omega
      simp only [Riscv.storeResult, setAt, hm0, if_false]
  unfold reparse
  rw [hb0]
  exact List.map_congr_left (fun i hi => hrec i (List.mem_range.mp hi))

/-- When each of the first `final_count` candidates passes the packer test,
reparsing the result buffer yields those candidates, in order. -/
theorem reparse_first_records (s : Riscv) (result_addr frame_info : Nat)
    (hconf : ∀ i, i < final_count_of s result_addr frame_info →
      ((run_decoder s result_addr frame_info).1 i).confidence > 1 / 2) :
    reparse (process_yolo_results s result_addr frame_info).result_buffer =
      (List.range (final_count_of s result_addr frame_info)).map
        (fun i => some ((run_decoder s result_addr frame_info).1 i)) := by
  rw [reparse_records]
  exact List.map_congr_left
    (fun i hi => if_pos (decide_eq_true (hconf i (List.mem_range.mp hi))))

/-- The packer's own confidence test at work: one anchor whose final
confidence is exactly 0.5.  NMS retains it (count word 1), the packer test
`confidence > 0.5` rejects it, and record 0 keeps the words the buffer held
before. -/
theorem reparse_misses_retained :
    nms_retained (run_decoder (riscv_on (fun _ => 0) half_tensor) 0x71000000 6553700).1
      (run_decoder (riscv_on (fun _ => 0) half_tensor) 0x71000000 6553700).2 =
      [⟨0, 0, 10, 10, 1 / 2, 0⟩] ∧
    reparse (process_yolo_results (riscv_on (fun _ => 0) half_tensor)
      0x71000000 6553700).result_buffer = [none] ∧
    reparse (process_yolo_results (riscv_on (fun _ => 0) half_tensor)
      0x71000000 6553700).result_buffer ≠
      (nms_retained (run_decoder (riscv_on (fun _ => 0) half_tensor) 0x71000000 6553700).1
        (run_decoder (riscv_on (fun _ => 0) half_tensor) 0x71000000 6553700).2).map some := by
  have hret : nms_retained
      (run_decoder (riscv_on (fun _ => 0) half_tensor) 0x71000000 6553700).1
      (run_decoder (riscv_on (fun _ => 0) half_tensor) 0x71000000 6553700).2 =
      [⟨0, 0, 10, 10, 1 / 2, 0⟩] := by
    rw [run_decoder_half]
    norm_num [nms_retained, nms_pass, nms_outer, nms_inner, setAt, List.range_succ,
      List.filter_cons]
  have hrep : reparse (process_yolo_results (riscv_on (fun _ => 0) half_tensor)
      0x71000000 6553700).result_buffer = [none] := by
    rw [reparse_records, final_count_half, run_decoder_half]
    norm_num [List.range_succ, pack_gate, setAt, parse_record, riscv_on]
  rw [hret, hrep]
  refine ⟨rfl, rfl, ?_⟩
  simp

/-- The decoder on `single_tensor` emits one candidate of confidence 0.9. -/
theorem run_decoder_single :
    run_decoder (riscv_on (fun _ => 0) single_tensor) 0x71000000 6553700 =
      (setAt (fun _ => default) 0 ⟨0, 0, 10, 10, 9 / 10, 0⟩, 1) := by
  have hd : frame_dims 6553700 = (100, 100) := by decide
  have h0 : decode_anchor single_tensor 100 100 0 = ⟨0, 0, 10, 10, 9 / 10, 0⟩ := by
    rw [single_tensor, decode_anchor_row single_rows 100 100 0
      0 0 (1 / 10) (1 / 10) (9 / 10) 1 rfl (by norm_num)]
    norm_num
  have hq : single_tensor (0 * 85 + 4) > 1 / 4 := by
    rw [single_tensor, tensor_of_at _ 0 4 (by omega)]
    norm_num [single_rows]
  unfold run_decoder
  simp only [hd, riscv_on]
  rw [show (25200 : Nat) = 25199 + 1 from rfl, decode_loop, if_pos hq, if_neg (by omega), h0]
  exact decode_loop_none _ _ _ _ _ _
    (fun a h1 _ => tensor_of_tail _ a (by simpa [single_rows] using h1))

/-- On `three_anchor_tensor` the result buffer reparses to A and B. -/
theorem reparse_three :
    reparse (process_yolo_results (riscv_on (fun _ => 0) three_anchor_tensor)
      0x71000000 6553700).result_buffer =
      [some ⟨1, 1, 10, 10, 3 / 5, 0⟩, some ⟨0, 0, 10, 10, 9 / 10, 0⟩] := by
  have hconf : ∀ i, i < final_count_of (riscv_on (fun _ => 0) three_anchor_tensor)
      0x71000000 6553700 →
      ((run_decoder (riscv_on (fun _ => 0) three_anchor_tensor) 0x71000000 6553700).1
        i).confidence > 1 / 2 := by
    intro i hi
    rw [final_count_three.1] at hi
    rw [run_decoder_three]
    have hcases : i = 0 ∨ i = 1 := by omega
    rcases hcases with rfl | rfl <;> norm_num [setAt]
  rw [reparse_first_records _ _ _ hconf, final_count_three.1, run_decoder_three]
  simp [List.range_succ, setAt]

/-- C7 (fails on the code): three candidates, all of confidence above 0.5, on
a 100 x 100 frame: A = (1,1,10,10), 0.6; B = (0,0,10,10), 0.9; C =
(50,0,10,10), 0.7.  NMS suppresses A (B overlaps it with higher confidence)
and retains B and C, so the count word is 2; the packer then writes
`detections[0]` and `detections[1]`.  Reparsing the buffer yields A and B,
not the retained B and C. -/
theorem packed_records_not_retained :
    reparse (process_yolo_results (riscv_on (fun _ => 0) three_anchor_tensor)
      0x71000000 6553700).result_buffer =
      [some ⟨1, 1, 10, 10, 3 / 5, 0⟩, some ⟨0, 0, 10, 10, 9 / 10, 0⟩] ∧
    nms_retained
      (process_yolo_results (riscv_on (fun _ => 0) three_anchor_tensor)
        0x71000000 6553700).detections
      (run_decoder (riscv_on (fun _ => 0) three_anchor_tensor) 0x71000000 6553700).2 =
      [⟨0, 0, 10, 10, 9 / 10, 0⟩, ⟨50, 0, 10, 10, 7 / 10, 0⟩] ∧
    reparse (process_yolo_results (riscv_on (fun _ => 0) three_anchor_tensor)
      0x71000000 6553700).result_buffer ≠
      (nms_retained
        (process_yolo_results (riscv_on (fun _ => 0) three_anchor_tensor)
          0x71000000 6553700).detections
        (run_decoder (riscv_on (fun _ => 0) three_anchor_tensor) 0x71000000 6553700).2).map
        some := by
  have hdet := (process_yolo_results_packs (riscv_on (fun _ => 0) three_anchor_tensor)
    0x71000000 6553700).2.2
  rw [hdet, reparse_three, final_count_three.2]
  refine ⟨rfl, rfl, ?_⟩
  intro h
  have hx := congrArg (fun l => (l.head?.bind id).map detection_t.x) h
  norm_num at hx

/-! ### Intersection area, accelerator timeout -/

/-- C11 (fails on the code): boxes (0,0,10,10) and (20,20,10,10) are separated
by 10 on both axes.  The clamped intersection is 0, but `apply_nms` multiplies
the two negative extents into the intersection 100, computes IoU 1 > 0.45 and
clears `keep[0]` because of candidate 1: it returns 1. -/
theorem separated_boxes_intersect :
    clamped_intersection (far_apart 0) (far_apart 1) = 0 ∧
    nms_intersection (far_apart 0) (far_apart 1) = 100 ∧
    computed_iou (far_apart 0) (far_apart 1) = some (fquot.fin 1) ∧
    (nms_pass far_apart 2 (1 / 2) (9 / 20)).1 0 = false ∧
    apply_nms far_apart 2 (9 / 20) = 1 := by
  norm_num [clamped_intersection, apply_nms, apply_nms_at, nms_pass, nms_outer, nms_inner,
    computed_iou, nms_intersection, nms_iou, float_div, nms_x1, nms_x2, nms_y1, nms_y2, far_apart, setAt]

/-- The polls of `wait_dpu_done` store to no register. -/
theorem poll_trace_no_write (status : Nat → Nat) (idx k n : Nat) :
    (poll_trace status k n).filter (Event.writesTo idx) = [] := by
  unfold poll_trace
  generalize List.range' k n = l
  induction l with
  | nil => rfl
  | cons a l ih => simp [List.flatMap_cons, Event.writesTo, ih]

/-- `run_dpu_inference` stores only to accelerator registers: the registers
below word index `0x4000`, the frame counter and the average latency are
unchanged. -/
theorem run_dpu_inference_effect (g : Host) (a b w h : Nat) :
    (∀ idx, idx < 0x4000 → (run_dpu_inference g a b w h).2.regs idx = g.regs idx) ∧
    (run_dpu_inference g a b w h).2.frame_count = g.frame_count ∧
    (run_dpu_inference g a b w h).2.avg_latency = g.avg_latency ∧
    (∀ idx, idx < 0x4000 →
      (run_dpu_inference g a b w h).2.trace.filter (Event.writesTo idx) =
        g.trace.filter (Event.writesTo idx)) := by
  have e0 : hw_index DPU_CTRL_REG = 0x4000 := by decide
  have e2 : hw_index DPU_INPUT_ADDR_REG = 0x4002 := by decide
  have e3 : hw_index DPU_OUTPUT_ADDR_REG = 0x4003 := by decide
  have e4 : hw_index DPU_WIDTH_REG = 0x4004 := by decide
  have e5 : hw_index DPU_HEIGHT_REG = 0x4005 := by decide
  refine ⟨?_, rfl, rfl, ?_⟩
  · intro idx hidx
    simp only [run_dpu_inference, Host.writeReg, setAt, e0, e2, e3, e4, e5]
    rw [if_neg (by omega), if_neg (by omega), if_neg (by omega), if_neg (by omega),
      if_neg (by omega)]
  · intro idx hidx
    have n0 : ¬ (0x4000 = idx) := by omega
    have n2 : ¬ (0x4002 = idx) := by omega
    have n3 : ¬ (0x4003 = idx) := by omega
    have n4 : ¬ (0x4004 = idx) := by omega
    have n5 : ¬ (0x4005 = idx) := by omega
    simp [run_dpu_inference, Host.writeReg, e0, e2, e3, e4, e5, Event.writesTo, n0, n2, n3,
      n4, n5]

/-- `wait_dpu_done` when none of its 1000 polls sees the done bit. -/
theorem wait_dpu_done_never (status : Nat → Nat) (h : Host)
    (hnever : ∀ k, k < 1000 → status k % 2 = 0) :
    wait_dpu_done status h = (-1, { h with trace := h.trace ++ poll_trace status 0 1000 }) := by
  unfold wait_dpu_done
  exact wait_dpu_loop_never status 1000 0 h (fun m _ h2 => hnever m (by omega))

/-- `run_dpu_inference` always returns 0. -/
theorem run_dpu_inference_pair (g : Host) (a b w h : Nat) :
    run_dpu_inference g a b w h = (0, (run_dpu_inference g a b w h).2) := rfl

/-- The state in which `process_frame` returns when the accelerator times
out: the one left by `run_dpu_inference` and the 1000 polls. -/
theorem process_frame_timeout_state (h : Host) (status : Nat → Nat) (latency : ℚ)
    (frame_data : Nat → Nat) (width height : Nat)
    (hnever : ∀ k, k < 1000 → status k % 2 = 0) :
    process_frame h status latency frame_data width height =
      (-1, { (run_dpu_inference
          { h with shared := fun k => if k < width * height * 3 then frame_data k
                                      else h.shared k }
          input_addr output_addr width height).2 with
        trace := (run_dpu_inference
          { h with shared := fun k => if k < width * height * 3 then frame_data k
                                      else h.shared k }
          input_addr output_addr width height).2.trace ++ poll_trace status 0 1000 }) := by
  rw [process_frame, run_dpu_inference_pair]
  dsimp only
  rw [wait_dpu_done_never status _ hnever]
  dsimp only
  rw [if_neg (by decide), if_pos (by decide)]

/-- C13: if none of the 1000 polls of `wait_dpu_done` sees the done bit,
`process_frame` returns -1 without sending a command to the co-processor: its
command, data-address and interrupt-trigger registers are unchanged, the call
makes no store to any of them, and the frame counter and the running average
latency are unchanged. -/
theorem process_frame_timeout (h : Host) (status : Nat → Nat) (latency : ℚ)
    (frame_data : Nat → Nat) (width height : Nat)
    (hnever : ∀ k, k < 1000 → status k % 2 = 0) :
    (process_frame h status latency frame_data width height).1 = -1 ∧
    (process_frame h status latency frame_data width height).2.regs (hw_index RISCV_CMD_REG) =
      h.regs (hw_index RISCV_CMD_REG) ∧
    (process_frame h status latency frame_data width height).2.regs
      (hw_index RISCV_DATA_ADDR_REG) = h.regs (hw_index RISCV_DATA_ADDR_REG) ∧
    (process_frame h status latency frame_data width height).2.regs (hw_index RISCV_IRQ_REG) =
      h.regs (hw_index RISCV_IRQ_REG) ∧
    (process_frame h status latency frame_data width height).2.frame_count = h.frame_count ∧
    (process_frame h status latency frame_data width height).2.avg_latency = h.avg_latency ∧
    (process_frame h status latency frame_data width height).2.trace.filter
        (Event.writesTo (hw_index RISCV_CMD_REG)) =
      h.trace.filter (Event.writesTo (hw_index RISCV_CMD_REG)) ∧
    (process_frame h status latency frame_data width height).2.trace.filter
        (Event.writesTo (hw_index RISCV_DATA_ADDR_REG)) =
      h.trace.filter (Event.writesTo (hw_index RISCV_DATA_ADDR_REG)) ∧
    (process_frame h status latency frame_data width height).2.trace.filter
        (Event.writesTo (hw_index RISCV_IRQ_REG)) =
      h.trace.filter (Event.writesTo (hw_index RISCV_IRQ_REG)) := by
  obtain ⟨hr, hf, hl, ht⟩ := run_dpu_inference_effect
    { h with shared := fun k => if k < width * height * 3 then frame_data k else h.shared k }
    input_addr output_addr width height
  have e0 : hw_index RISCV_CMD_REG = 0 := by decide
  have e2 : hw_index RISCV_DATA_ADDR_REG = 2 := by decide
  have e3 : hw_index RISCV_IRQ_REG = 3 := by decide
  rw [process_frame_timeout_state h status latency frame_data width height hnever, e0, e2, e3]
  dsimp only
  rw [List.filter_append, List.filter_append, List.filter_append, poll_trace_no_write,
    poll_trace_no_write, poll_trace_no_write, hr 0 (by omega), hr 2 (by omega),
    hr 3 (by omega), ht 0 (by omega), ht 2 (by omega), ht 3 (by omega), hf, hl]
  simp

/-- Witness for C13: an accelerator whose status register always reads 0. -/
theorem process_frame_timeout_witness :
    (process_frame (host_with 0) (fun _ => 0) 0 (fun _ => 0) 1920 1080).1 = -1 :=
  (process_frame_timeout (host_with 0) (fun _ => 0) 0 (fun _ => 0) 1920 1080
    (fun _ _ => rfl)).1

/-! ### Interrupt handler, arena layout, ties, the two confidence gates -/

/-- C14: whatever the command register holds (opcodes outside 1, 2, 3
included), `interrupt_handler` ends with 1 in the interrupt-clear register and
0 (idle) in the status register. -/
theorem interrupt_handler_clears (s : Riscv) :
    (interrupt_handler s).regs (rv_index IRQ_CLR_REG) = 1 ∧
    (interrupt_handler s).regs (rv_index STATUS_REG) = 0 := by
  have e1 : rv_index STATUS_REG = 1 := by decide
  have e3 : rv_index IRQ_CLR_REG = 3 := by decide
  rw [interrupt_handler]
  dsimp only
  generalize (if (handler_decode s).1 = 1 then
      process_yolo_results s (handler_decode s).2.1 (handler_decode s).2.2
    else if (handler_decode s).1 = 2 then s
    else if (handler_decode s).1 = 3 then write_reg s RESULT_REG s.processed_frames
    else s) = s1
  simp [write_reg, setAt, e1, e3]

/-- C15: with the fixed layout, the largest frame (1920 x 1080 x 3 bytes), the
largest tensor (25200 x 85 floats of 4 bytes) and the largest result area
(1 + 100 x 6 words of 4 bytes) each end before the next sub-region starts, so
the four sub-regions are pairwise disjoint and all lie inside the arena. -/
theorem arena_layout_fits :
    SHARED_MEM_BASE ≤ input_addr ∧
    input_addr + 1920 * 1080 * 3 ≤ output_addr ∧
    output_addr + 25200 * 85 * 4 ≤ processed_addr ∧
    processed_addr ≤ result_buffer_addr ∧
    result_buffer_addr + (1 + 100 * 6) * 4 ≤ SHARED_MEM_BASE + SHARED_MEM_SIZE ∧
    input_addr = SHARED_MEM_BASE + 0 ∧
    output_addr = SHARED_MEM_BASE + 0x1000000 ∧
    processed_addr = SHARED_MEM_BASE + 0x2000000 ∧
    result_buffer_addr = SHARED_MEM_BASE + 0x3000000 ∧
    SHARED_MEM_SIZE = 0x10000000 := by
  decide

/-- C16 (counterexample): two overlapping candidates of equal confidence 0.9.
At the end of the pass the flag of the earlier one is false and the flag of
the later one is true. -/
theorem tie_suppresses_earlier :
    computed_iou (tie_pair 0) (tie_pair 1) = some (fquot.fin (81 / 119)) ∧
    (nms_pass tie_pair 2 (1 / 2) (9 / 20)).1 0 = false ∧
    (nms_pass tie_pair 2 (1 / 2) (9 / 20)).1 1 = true := by
  norm_num [nms_pass, nms_outer, nms_inner, computed_iou,
    nms_intersection, nms_iou, float_div, nms_x1, nms_x2, nms_y1, nms_y2, tie_pair, setAt]

/-- While candidate `i` is scanned, the flag of a candidate whose confidence
is not below that of `i` is never cleared. -/
theorem nms_inner_keeps_not_lower (dets : Nat → detection_t) (ct thr : ℚ) (i k : Nat)
    (hk : k ≠ i) (hnot : ¬ (dets i).confidence > (dets k).confidence) :
    ∀ (fuel j : Nat) (keep : Nat → Bool),
      nms_inner dets ct thr i fuel j keep k = keep k := by
  intro fuel
  induction fuel with
  | zero => intro j keep; rfl
  | succ fuel ih =>
    intro j keep
    rw [nms_inner]
    by_cases hc : (dets j).confidence < ct
    · rw [if_pos hc]; exact ih (j + 1) keep
    · rw [if_neg hc]
      cases computed_iou (dets i) (dets j) with
      | none => exact ih (j + 1) keep
      | some v =>
        dsimp only
        by_cases hv : v > thr
        · rw [if_pos hv]
          by_cases hg : (dets i).confidence > (dets j).confidence
          · rw [if_pos hg, ih (j + 1) _]
            have hkj : k ≠ j := fun h => hnot (h ▸ hg)
            simp only [setAt, if_neg hkj]
          · rw [if_neg hg]
            simp only [setAt, if_neg hk]
        · rw [if_neg hv]; exact ih (j + 1) keep

/-- C16 (amended): for candidates at indices `i < j < num_dets` of equal
confidence, that confidence at least 0.5, and with computed IoU above the
threshold, `apply_nms` suppresses the earlier one and does not clear the flag
of the later one on account of the pair: the scan of `i` leaves `keep[j]` as
it was, and when the pass ends the kept flag of `i` is false. -/
theorem tie_flags (dets : Nat → detection_t) (num_dets : Nat) (nms_threshold : ℚ)
    (i j : Nat) (v : fquot) (hij : i < j) (hj : j < num_dets)
    (hcj : (dets j).confidence ≥ 1 / 2)
    (heq : (dets i).confidence = (dets j).confidence)
    (hiou : computed_iou (dets i) (dets j) = some v) (hv : v > nms_threshold) :
    (nms_pass dets num_dets (1 / 2) nms_threshold).1 i = false ∧
    (∀ keep : Nat → Bool,
      nms_inner dets (1 / 2) nms_threshold i (num_dets - (i + 1)) (i + 1) keep j = keep j) := by
  constructor
  · rw [nms_pass_keep dets num_dets _ _ i (by omega)]
    have h1 : decide ((dets j).confidence < 1 / 2) = false := decide_eq_false (not_lt.mpr hcj)
    have h2 : decide (v > nms_threshold) = true := decide_eq_true hv
    have h3 : decide ((dets i).confidence > (dets j).confidence) = false :=
      decide_eq_false (by rw [heq]; exact lt_irrefl _)
    have hs : suppresses dets (1 / 2) nms_threshold i j = true := by
      unfold suppresses
      rw [hiou]
      dsimp only
      rw [h1, h2, h3]
      rfl
    have hmem : j ∈ List.range' (i + 1) (num_dets - (i + 1)) := by
      rw [List.mem_range']; exact ⟨j - (i + 1), by omega, by omega⟩
    have hall : (List.range' (i + 1) (num_dets - (i + 1))).all
        (fun m => !suppresses dets (1 / 2) nms_threshold i m) = false := by
      rw [List.all_eq_false]
      exact ⟨j, hmem, by rw [hs]; decide⟩
    unfold survives
    rw [hall, Bool.and_false]
  · intro keep
    exact nms_inner_keeps_not_lower dets (1 / 2) nms_threshold i j (by omega)
      (by rw [heq]; exact lt_irrefl _) _ _ keep

/-- Witness for C16 (amended): the tie of `tie_pair`. -/
theorem tie_flags_witness :
    (nms_pass tie_pair 2 (1 / 2) (9 / 20)).1 0 = false :=
  (tie_flags tie_pair 2 (9 / 20) 0 1 (fquot.fin (81 / 119)) (by decide) (by decide)
    (by norm_num [tie_pair]) (by norm_num [tie_pair])
    (by norm_num [computed_iou, nms_intersection, nms_iou, float_div, nms_x1, nms_x2, nms_y1, nms_y2,
      tie_pair]) (by norm_num)).1

/-- C17: for a single decoded candidate of confidence `c`, `apply_nms` counts
it exactly when `c >= 0.5`, and the packer loop run up to that count writes
its record exactly when `c > 0.5`; the two gates agree for every `c` except
exactly 0.5, and a candidate of confidence 0.6 is counted and written. -/
theorem single_candidate_gates (dets : Nat → detection_t) (nms_threshold : ℚ) (s : Riscv) :
    (apply_nms dets 1 nms_threshold = 1 ↔ (dets 0).confidence ≥ 1 / 2) ∧
    (apply_nms dets 1 nms_threshold = 0 ↔ (dets 0).confidence < 1 / 2) ∧
    ((pack_loop dets (apply_nms dets 1 nms_threshold) 0 s).writes =
        s.writes ++ record_words 0 (dets 0) ↔ (dets 0).confidence > 1 / 2) ∧
    ((pack_loop dets (apply_nms dets 1 nms_threshold) 0 s).writes = s.writes ↔
        (dets 0).confidence ≤ 1 / 2) ∧
    ((apply_nms dets 1 nms_threshold = 1 ↔
        (pack_loop dets (apply_nms dets 1 nms_threshold) 0 s).writes =
          s.writes ++ record_words 0 (dets 0)) ↔ (dets 0).confidence ≠ 1 / 2) ∧
    ((dets 0).confidence = 6 / 10 →
      apply_nms dets 1 nms_threshold = 1 ∧
      (pack_loop dets (apply_nms dets 1 nms_threshold) 0 s).writes =
        s.writes ++ record_words 0 (dets 0)) := by
  have hne : record_words 0 (dets 0) ≠ [] := by simp [record_words]
  have hcount : apply_nms dets 1 nms_threshold =
      if (dets 0).confidence < 1 / 2 then 0 else 1 := by
    rw [apply_nms, apply_nms_at, nms_pass, nms_outer]
    split_ifs with hc
    · rfl
    · simp [nms_outer, nms_inner, setAt]
  have hwrites : (pack_loop dets (apply_nms dets 1 nms_threshold) 0 s).writes =
      if (dets 0).confidence > 1 / 2 then s.writes ++ record_words 0 (dets 0) else s.writes := by
    rw [hcount]
    by_cases hc : (dets 0).confidence < 1 / 2
    · rw [if_pos hc, if_neg (not_lt.mpr (le_of_lt hc))]
      rfl
    · rw [if_neg hc, pack_loop]
      split_ifs with hg
      · rw [pack_loop, (store_record_fields s 0 (dets 0)).1]
      · rw [pack_loop]
  have h1 : apply_nms dets 1 nms_threshold = 1 ↔ (dets 0).confidence ≥ 1 / 2 := by
    rw [hcount]
    split_ifs with hc
    · exact ⟨fun h => absurd h (by decide), fun h => absurd hc (not_lt.mpr h)⟩
    · exact ⟨fun _ => not_lt.mp hc, fun _ => rfl⟩
  have h2 : apply_nms dets 1 nms_threshold = 0 ↔ (dets 0).confidence < 1 / 2 := by
    rw [hcount]
    split_ifs with hc
    · exact ⟨fun _ => hc, fun _ => rfl⟩
    · exact ⟨fun h => absurd h (by decide), fun h => absurd h hc⟩
  have h3 : (pack_loop dets (apply_nms dets 1 nms_threshold) 0 s).writes =
      s.writes ++ record_words 0 (dets 0) ↔ (dets 0).confidence > 1 / 2 := by
    rw [hwrites]
    split_ifs with hg
    · exact ⟨fun _ => hg, fun _ => rfl⟩
    · refine ⟨fun h => ?_, fun h => absurd h hg⟩
      exact absurd (List.self_eq_append_right.mp h) hne
  have h4 : (pack_loop dets (apply_nms dets 1 nms_threshold) 0 s).writes = s.writes ↔
      (dets 0).confidence ≤ 1 / 2 := by
    rw [hwrites]
    split_ifs with hg
    · refine ⟨fun h => ?_, fun h => absurd hg (not_lt.mpr h)⟩
      exact absurd (List.append_right_eq_self.mp h) hne
    · exact ⟨fun _ => not_lt.mp hg, fun _ => rfl⟩
  refine ⟨h1, h2, h3, h4, ?_, ?_⟩
  · rw [h1, h3]
    constructor
    · intro h heq
      rw [heq] at h
      exact absurd (h.mp (le_refl _)) (lt_irrefl _)
    · intro hne2
      exact ⟨fun h => lt_of_le_of_ne h (Ne.symm hne2), fun h => le_of_lt h⟩
  · intro h6
    exact ⟨h1.mpr (by rw [h6]; norm_num), h3.mpr (by rw [h6]; norm_num)⟩

/-! ### The frame loop, the NMS count -/

/-- The class scan over non-negative scores: after classes `0 .. n-1` the
pair holds the largest score so far and the first class attaining it; at the
end it holds the maximum of the 80 scores and the smallest index attaining
it. -/
theorem class_scan_argmax (raw : Nat → ℚ) (i : Nat)
    (hnn : ∀ c, c < 80 → 0 ≤ raw (i * 85 + 5 + c)) :
    ∀ (fuel n : Nat) (p : ℚ) (k : Nat), n + fuel = 80 →
      (∀ c, c < n → raw (i * 85 + 5 + c) ≤ p) →
      (n = 0 → p = 0 ∧ k = 0) →
      (0 < n → k < n ∧ raw (i * 85 + 5 + k) = p ∧ ∀ c, c < k → raw (i * 85 + 5 + c) < p) →
      ∃ k2 : Nat, k2 < 80 ∧
        (class_scan raw i fuel (5 + n) (p, (k : Int))).2 = (k2 : Int) ∧
        (class_scan raw i fuel (5 + n) (p, (k : Int))).1 = raw (i * 85 + 5 + k2) ∧
        (∀ c, c < 80 → raw (i * 85 + 5 + c) ≤ raw (i * 85 + 5 + k2)) ∧
        (∀ c, c < k2 → raw (i * 85 + 5 + c) < raw (i * 85 + 5 + k2)) := by
  intro fuel
  induction fuel with
  | zero =>
    intro n p k hn hle _ hpos
    have hn80 : n = 80 := by omega
    subst hn80
    obtain ⟨hk, hkp, hlt⟩ := hpos (by omega)
    refine ⟨k, hk, rfl, ?_, ?_, ?_⟩
    · rw [hkp]; rfl
    · intro c hc; rw [hkp]; exact hle c hc
    · intro c hc; rw [hkp]; exact hlt c hc
  | succ fuel ih =>
    intro n p k hn hle hzero hpos
    have hidx : i * 85 + (5 + n) = i * 85 + 5 + n := by omega
    have hcast : (((5 + n : Nat) : Int) - 5) = (n : Int) := by push_cast; ring
    rw [class_scan, hidx, hcast]
    by_cases hgt : raw (i * 85 + 5 + n) > p
    · rw [if_pos hgt]
      have := ih (n + 1) (raw (i * 85 + 5 + n)) n (by omega)
        (fun c hc => by
          by_cases hcn : c = n
          · rw [hcn]
          · exact le_of_lt (lt_of_le_of_lt (hle c (by omega)) hgt))
        (fun h0 => absurd h0 (by omega))
        (fun _ => ⟨by omega, rfl, fun c hc => lt_of_le_of_lt (hle c hc) hgt⟩)
      rwa [show 5 + (n + 1) = 5 + n + 1 by omega] at this
    · rw [if_neg hgt]
      have hnle : raw (i * 85 + 5 + n) ≤ p := not_lt.mp hgt
      have := ih (n + 1) p k (by omega)
        (fun c hc => by
          by_cases hcn : c = n
          · rw [hcn]; exact hnle
          · exact hle c (by omega))
        (fun h0 => absurd h0 (by omega))
        (fun _ => by
          by_cases hn0 : n = 0
          · obtain ⟨hp0, hk0⟩ := hzero hn0
            subst hn0
            subst hk0
            refine ⟨by omega, ?_, fun c hc => absurd hc (by omega)⟩
            rw [hp0] at hnle
            rw [hp0]
            exact le_antisymm hnle (hnn 0 (by omega))
          · obtain ⟨hk, hkp, hlt⟩ := hpos (by omega)
            exact ⟨by omega, hkp, hlt⟩)
      rwa [show 5 + (n + 1) = 5 + n + 1 by omega] at this

/-- Every candidate that the decoder emits is the candidate decoded from one
of the 25200 anchors, one that passes the object-confidence test. -/
theorem run_decoder_emits_anchor (s : Riscv) (result_addr frame_info k : Nat)
    (hk : k < (run_decoder s result_addr frame_info).2) :
    ∃ a, a < 25200 ∧ qualifies (s.float_mem result_addr) a = true ∧
      (run_decoder s result_addr frame_info).1 k =
        decode_anchor (s.float_mem result_addr) (frame_dims frame_info).1
          (frame_dims frame_info).2 a := by
  unfold run_decoder at hk ⊢
  simp only [] at hk ⊢
  obtain ⟨_, _, h3⟩ := decode_loop_spec (s.float_mem result_addr) (frame_dims frame_info).1
    (frame_dims frame_info).2 25200 0 s.detections 0 (by omega)
  have hmem : (decode_loop (s.float_mem result_addr) (frame_dims frame_info).1
      (frame_dims frame_info).2 25200 0 (s.detections, 0)).1 k ∈
      (List.range' 0 ((decode_loop (s.float_mem result_addr) (frame_dims frame_info).1
        (frame_dims frame_info).2 25200 0 (s.detections, 0)).2 - 0)).map
        (decode_loop (s.float_mem result_addr) (frame_dims frame_info).1
          (frame_dims frame_info).2 25200 0 (s.detections, 0)).1 :=
    List.mem_map.mpr ⟨k, by rw [List.mem_range']; exact ⟨k, by omega, by omega⟩, rfl⟩
  rw [h3] at hmem
  obtain ⟨a, ha, hda⟩ := List.mem_map.mp hmem
  have ha2 := List.mem_filter.mp (List.mem_of_mem_take ha)
  refine ⟨a, ?_, ha2.2, hda.symm⟩
  have := List.mem_range'_1.mp ha2.1
  omega

/-- C12: every candidate that the decoder emits comes from a qualifying
anchor `a`; its `x` and `w` are the anchor's normalized `x` and `w` times the
frame width and its `y` and `h` the normalized `y` and `h` times the frame
height.  When the anchor's 80 class scores are all non-negative, its class id
is the smallest index attaining the maximum class score and its confidence is
the object confidence times that maximum. -/
theorem emitted_candidate_fields (s : Riscv) (result_addr frame_info k : Nat)
    (hk : k < (run_decoder s result_addr frame_info).2) :
    ∃ a, a < 25200 ∧ s.float_mem result_addr (a * 85 + 4) > 1 / 4 ∧
      ((run_decoder s result_addr frame_info).1 k).x =
        s.float_mem result_addr (a * 85 + 0) * ((frame_dims frame_info).1 : ℚ) ∧
      ((run_decoder s result_addr frame_info).1 k).y =
        s.float_mem result_addr (a * 85 + 1) * ((frame_dims frame_info).2 : ℚ) ∧
      ((run_decoder s result_addr frame_info).1 k).w =
        s.float_mem result_addr (a * 85 + 2) * ((frame_dims frame_info).1 : ℚ) ∧
      ((run_decoder s result_addr frame_info).1 k).h =
        s.float_mem result_addr (a * 85 + 3) * ((frame_dims frame_info).2 : ℚ) ∧
      ((∀ c, c < 80 → 0 ≤ s.float_mem result_addr (a * 85 + 5 + c)) →
        ∃ c0 : Nat, c0 < 80 ∧
          ((run_decoder s result_addr frame_info).1 k).class_id = (c0 : Int) ∧
          (∀ c, c < 80 → s.float_mem result_addr (a * 85 + 5 + c) ≤
            s.float_mem result_addr (a * 85 + 5 + c0)) ∧
          (∀ c, c < c0 → s.float_mem result_addr (a * 85 + 5 + c) <
            s.float_mem result_addr (a * 85 + 5 + c0)) ∧
          ((run_decoder s result_addr frame_info).1 k).confidence =
            s.float_mem result_addr (a * 85 + 4) *
              s.float_mem result_addr (a * 85 + 5 + c0)) := by
  obtain ⟨a, ha, hq, hd⟩ := run_decoder_emits_anchor s result_addr frame_info k hk
  refine ⟨a, ha, of_decide_eq_true hq, ?_, ?_, ?_, ?_, ?_⟩
  · rw [hd]; rfl
  · rw [hd]; rfl
  · rw [hd]; rfl
  · rw [hd]; rfl
  · intro hnn
    obtain ⟨c0, hc0, hid, hmax, hle, hlt⟩ := class_scan_argmax (s.float_mem result_addr) a hnn
      80 0 0 0 (by omega) (fun c hc => absurd hc (by omega)) (fun _ => ⟨rfl, rfl⟩)
      (fun h0 => absurd h0 (by omega))
    refine ⟨c0, hc0, ?_, hle, hlt, ?_⟩
    · rw [hd]; exact hid
    · rw [hd]
      show s.float_mem result_addr (a * 85 + 4) *
        (class_scan (s.float_mem result_addr) a 80 5 (0, 0)).1 = _
      rw [← hmax]
      rfl

/-- Witness for C12: the single candidate decoded from `single_tensor`. -/
theorem emitted_candidate_fields_witness :
    ∃ a, a < 25200 ∧ single_tensor (a * 85 + 4) > 1 / 4 ∧
      ((run_decoder (riscv_on (fun _ => 0) single_tensor) 0x71000000 6553700).1 0).x =
        single_tensor (a * 85 + 0) * ((frame_dims 6553700).1 : ℚ) := by
  obtain ⟨a, h1, h2, h3, _⟩ :=
    emitted_candidate_fields (riscv_on (fun _ => 0) single_tensor) 0x71000000 6553700 0
      (by rw [run_decoder_single]; decide)
  exact ⟨a, h1, h2, h3⟩

/-! ### Array subscripts stay in range -/

/-- The class scan reads only values of its own anchor. -/
theorem class_scan_accesses_ok (raw : Nat → ℚ) (i : Nat) (hi : i < 25200) :
    ∀ (fuel j : Nat) (mp : ℚ), j + fuel ≤ 85 →
      (class_scan_accesses raw i fuel j mp).all Access.inBounds = true := by
  intro fuel
  induction fuel with
  | zero => intro j mp _; rfl
  | succ fuel ih =>
    intro j mp hj
    have hb : Access.inBounds (Access.raw_output (i * 85 + j)) = true :=
      decide_eq_true (by omega)
    rw [class_scan_accesses]
    split_ifs
    · rw [List.all_cons, List.all_cons, hb, ih (j + 1) _ (by omega)]; rfl
    · rw [List.all_cons, hb, ih (j + 1) _ (by omega)]; rfl

/-- The decoder loop stays inside the tensor and inside `detections`. -/
theorem decode_accesses_ok (raw : Nat → ℚ) :
    ∀ (fuel i num : Nat), i + fuel ≤ 25200 →
      (decode_accesses raw fuel i num).all Access.inBounds = true := by
  intro fuel
  induction fuel with
  | zero => intro i num _; rfl
  | succ fuel ih =>
    intro i num hi
    have hb : ∀ j, j < 85 → Access.inBounds (Access.raw_output (i * 85 + j)) = true :=
      fun j hj => decide_eq_true (by omega)
    rw [decode_accesses, List.all_cons, hb 4 (by omega), Bool.true_and]
    split_ifs with hq hfull
    · rfl
    · have hd : Access.inBounds (Access.detections num) = true := decide_eq_true (by omega)
      rw [List.all_append, ih (i + 1) (num + 1) (by omega), Bool.and_true, anchor_accesses,
        List.all_append, List.all_append, class_scan_accesses_ok raw i (by omega) 80 5 0
          (by omega)]
      simp only [List.all_cons, List.all_nil, hb 0 (by omega), hb 1 (by omega),
        hb 2 (by omega), hb 3 (by omega), hb 4 (by omega), hd, Bool.and_self]
    · exact ih (i + 1) num (by omega)

/-- The inner loop of `apply_nms` stays inside `dets` and `keep`. -/
theorem nms_inner_accesses_ok (dets : Nat → detection_t) (ct thr : ℚ) (i : Nat)
    (hi : i < 100) :
    ∀ (fuel j : Nat), j + fuel ≤ 100 →
      (nms_inner_accesses dets ct thr i fuel j).all Access.inBounds = true := by
  have hdi : Access.inBounds (Access.detections i) = true := decide_eq_true hi
  have hki : Access.inBounds (Access.keep i) = true := decide_eq_true hi
  intro fuel
  induction fuel with
  | zero => intro j _; rfl
  | succ fuel ih =>
    intro j hj
    have hdj : Access.inBounds (Access.detections j) = true := decide_eq_true (by omega)
    have hkj : Access.inBounds (Access.keep j) = true := decide_eq_true (by omega)
    have hrec := ih (j + 1) (by omega)
    rw [nms_inner_accesses, List.all_cons, hdj, Bool.true_and]
    by_cases hc : (dets j).confidence < ct
    · rw [if_pos hc]; exact hrec
    · rw [if_neg hc, List.all_cons, List.all_cons, hdi, hdj, Bool.true_and, Bool.true_and]
      cases computed_iou (dets i) (dets j) with
      | none => exact hrec
      | some v =>
        dsimp only
        rw [List.all_cons, List.all_cons, hdi, hdj, Bool.true_and, Bool.true_and]
        by_cases hv : v > thr
        · rw [if_pos hv, List.all_cons, List.all_cons, hdi, hdj, Bool.true_and, Bool.true_and]
          by_cases hg : (dets i).confidence > (dets j).confidence
          · rw [if_pos hg, List.all_cons, hkj, hrec]; rfl
          · rw [if_neg hg, List.all_cons, hki]; rfl
        · rw [if_neg hv]; exact hrec

/-- The outer loop of `apply_nms` stays inside `dets` and `keep` when
`num_dets <= 100`. -/
theorem nms_outer_accesses_ok (dets : Nat → detection_t) (n : Nat) (ct thr : ℚ)
    (hn : n ≤ 100) :
    ∀ (fuel i : Nat), i + fuel ≤ n →
      (nms_outer_accesses dets n ct thr fuel i).all Access.inBounds = true := by
  intro fuel
  induction fuel with
  | zero => intro i _; rfl
  | succ fuel ih =>
    intro i hi
    have hdi : Access.inBounds (Access.detections i) = true := decide_eq_true (by omega)
    have hki : Access.inBounds (Access.keep i) = true := decide_eq_true (by omega)
    rw [nms_outer_accesses, List.all_cons, hdi, Bool.true_and]
    split_ifs
    · exact ih (i + 1) (by omega)
    · rw [List.all_cons, hki, List.all_append, List.all_cons, hki,
        nms_inner_accesses_ok dets ct thr i (by omega) _ _ (by omega), ih (i + 1) (by omega)]
      rfl

/-- The packer loop stays inside `detections` and inside the first 601 words
of the result buffer when it runs over at most 100 candidates. -/
theorem pack_accesses_ok (dets : Nat → detection_t) :
    ∀ (fuel i : Nat), i + fuel ≤ 100 →
      (pack_accesses dets fuel i).all Access.inBounds = true := by
  intro fuel
  induction fuel with
  | zero => intro i _; rfl
  | succ fuel ih =>
    intro i hi
    have hdi : Access.inBounds (Access.detections i) = true := decide_eq_true (by omega)
    have hr : ∀ k, k < 6 → Access.inBounds (Access.result_buffer (1 + i * 6 + k)) = true :=
      fun k hk => decide_eq_true (by omega)
    rw [pack_accesses, List.all_cons, hdi, Bool.true_and]
    split_ifs
    · rw [List.all_append, ih (i + 1) (by omega)]
      simp only [List.all_cons, List.all_nil, hdi, hr 0 (by omega), hr 1 (by omega),
        hr 2 (by omega), hr 3 (by omega), hr 4 (by omega), hr 5 (by omega), Bool.and_self]
    · exact ih (i + 1) (by omega)

/-- The packer's subscripts into the result buffer are the indices of the
stores that `pack_loop` makes. -/
theorem pack_accesses_writes (dets : Nat → detection_t) :
    ∀ (fuel i : Nat) (s : Riscv),
      (pack_loop dets fuel i s).writes.map Prod.fst =
        s.writes.map Prod.fst ++ (pack_accesses dets fuel i).filterMap
          (fun a => match a with
            | Access.result_buffer k => some k
            | _ => none) := by
  intro fuel
  induction fuel with
  | zero => intro i s; simp [pack_loop, pack_accesses]
  | succ fuel ih =>
    intro i s
    rw [pack_loop, pack_accesses]
    split_ifs
    · rw [ih (i + 1) _, (store_record_fields s i (dets i)).1]
      simp [record_words, List.filterMap_cons, List.filterMap_append]
    · rw [ih (i + 1) s]
      simp [List.filterMap_cons]

/-- The decoder never holds more than 100 candidates. -/
theorem run_decoder_count_le (s : Riscv) (result_addr frame_info : Nat) :
    (run_decoder s result_addr frame_info).2 ≤ 100 := by
  obtain ⟨h1, _, _⟩ := decode_loop_spec (s.float_mem result_addr) (frame_dims frame_info).1
    (frame_dims frame_info).2 25200 0 s.detections 0 (by omega)
  unfold run_decoder
  simp only []
  rw [h1]
  exact Nat.min_le_left _ _

/-- C20: whatever the tensor and the `frame_info` word, every subscript that
one run of `process_yolo_results` evaluates (decoder, `apply_nms`, packer) is
in range: `detections` and `keep` below 100, the tensor below `25200 * 85`,
the result buffer at most at word 600. -/
theorem yolo_accesses_in_bounds (s : Riscv) (result_addr frame_info : Nat) :
    (yolo_accesses s result_addr frame_info).all Access.inBounds = true := by
  have hnum : (run_decoder s result_addr frame_info).2 ≤ 100 :=
    run_decoder_count_le s result_addr frame_info
  have hfc : final_count_of s result_addr frame_info ≤
      (run_decoder s result_addr frame_info).2 := by
    rw [final_count_of, apply_nms, apply_nms_at_eq_countP]
    exact (List.countP_le_length _).trans (List.length_range _).le
  rw [yolo_accesses, List.all_append, List.all_append, List.all_cons,
    decode_accesses_ok _ 25200 0 0 (by omega),
    nms_outer_accesses_ok _ _ _ _ hnum _ 0 (by omega),
    pack_accesses_ok _ _ 0 (by omega)]
  rfl

end MainController
